import Mathlib

/-!
Verification development for the Excel hyperlink image processor
(`20250304.py`).  The program loads a spreadsheet, groups hyperlinks by
row, allocates insertion columns, downloads each link in a worker,
classifies it by URL extension, rasterizes PDFs page by page, embeds
180×120 images, normalizes column widths and row heights, and saves.

The model below is a shallow embedding: strings are `List Char`,
network/filesystem/PDF behaviour is an explicit per-link environment,
and each run produces a list of observable effects (network gets,
scratch-file writes, image insertions, log events).  Python exceptions
are an explicit exception channel threaded next to the effect list;
the `try/except` of `_process_single_link` is the wrapper
`processSingleLink`.
-/

namespace ExcelHL

/-- Strings of the model, as explicit character lists. -/
abbrev Str := List Char

/-- Decimal digit character `'0'..'9'`, as produced by Python string
formatting. -/
def digitChar (d : Nat) : Char := Char.ofNat (48 + d)

/-- Fuel-indexed decimal rendering; `natStrAux n n` renders `n > 0`. -/
def natStrAux : Nat → Nat → Str
  | 0, _ => []
  | fuel + 1, n => if n = 0 then [] else natStrAux fuel (n / 10) ++ [digitChar (n % 10)]

/-- Decimal rendering of a natural number, as a Python f-string renders an
`int`. -/
def natStr (n : Nat) : Str := if n = 0 then ['0'] else natStrAux n n

/-- Numeric value of a digit string (left fold, most significant first);
used to invert `natStr`. -/
def decodeNat (s : Str) : Nat := s.foldl (fun acc c => acc * 10 + (c.toNat - 48)) 0

/-! ### URL parsing (`urllib.parse.urlparse(url).path`) -/

/-- Split a character list at the first occurrence of `c`: the part
before, and `some` rest (after the separator) when `c` occurs. -/
def breakAtChar (c : Char) : Str → Str × Option Str
  | [] => ([], none)
  | a :: as =>
    if a = c then ([], some as)
    else
      let p := breakAtChar c as
      (a :: p.1, p.2)

/-- The part of a character list before the first occurrence of `c`
(the whole list when `c` is absent), as Python `s.split(c, 1)[0]`. -/
def takeBefore (c : Char) : Str → Str
  | [] => []
  | a :: as => if a = c then [] else a :: takeBefore c as

/-- Characters CPython allows in a URL scheme. -/
def schemeChar (c : Char) : Bool := c.isAlpha || c.isDigit || c = '+' || c = '-' || c = '.'

/-- Drop a leading `scheme:` as CPython `urlsplit` does: the part before
the first `':'` must be nonempty, start with a letter and consist of
scheme characters. -/
def dropScheme (u : Str) : Str :=
  match breakAtChar ':' u with
  | (pre, some rest) =>
    (match pre with
     | [] => u
     | c :: _ => if c.isAlpha && pre.all schemeChar then rest else u)
  | (_, none) => u

/-- Skip to the first of `'/'`, `'?'`, `'#'` (netloc terminators). -/
def dropUntilDelim : Str → Str
  | [] => []
  | a :: as => if a = '/' || a = '?' || a = '#' then a :: as else dropUntilDelim as

/-- Drop a leading `//netloc` as CPython `urlsplit` does. -/
def dropNetloc : Str → Str
  | '/' :: '/' :: rest => dropUntilDelim rest
  | s => s

/-- CPython `urlparse` parameter splitting on the path: when the path
contains `';'`, the first `';'` at or after the last `'/'` starts the
parameters.  `trimAfterLastSlash` handles the case with a `'/'`. -/
def trimAfterLastSlash : Str → Str
  | [] => []
  | a :: as =>
    if '/' ∈ as then a :: trimAfterLastSlash as
    else if a = '/' then '/' :: takeBefore ';' as
    else a :: as

/-- Remove `urlparse` params from a path. -/
def paramsTrim (p : Str) : Str :=
  if ';' ∈ p then
    if '/' ∈ p then trimAfterLastSlash p else takeBefore ';' p
  else p

/-- The `path` component of `urlparse`: scheme and netloc removed,
fragment (first `'#'`) and query (first `'?'` before the fragment)
excluded, params split off. -/
def urlPath (url : Str) : Str :=
  paramsTrim (takeBefore '?' (takeBefore '#' (dropNetloc (dropScheme url))))

/-! ### Extension extraction (`os.path.splitext` + `lstrip('.')` + `lower()`) -/

/-- On the reversed remainder after the last dot: is there a non-dot
character before the start of the basename (the previous `'/'`)?
`os.path.splitext` treats a basename made of leading dots only as
having no extension. -/
def nonDotBeforeSlash : Str → Bool
  | [] => false
  | c :: cs => if c = '/' then false else if c = '.' then nonDotBeforeSlash cs else true

/-- Extension search on the reversed path: the characters strictly after
the last `'.'` of the basename (still reversed), or `none` when
`os.path.splitext` reports no extension. -/
def revExt : Str → Option Str
  | [] => none
  | c :: cs =>
    if c = '/' then none
    else if c = '.' then (if nonDotBeforeSlash cs then some [] else none)
    else (revExt cs).map fun e => c :: e

/-- `_get_file_extension`: extension of the URL path per
`os.path.splitext`, leading dot stripped, lowercased. -/
def getFileExtension (url : Str) : Str :=
  match revExt (urlPath url).reverse with
  | none => []
  | some e => e.reverse.map Char.toLower

/-- Modelled from the spec (§4.3, claim C9): classification extension as
the spec words it — the suffix after the *last* `'.'` anywhere in the
URL's path component, lowercased; no dot means no extension. -/
def specExtension (url : Str) : Str :=
  match breakAtChar '.' (urlPath url).reverse with
  | (pre, some _) => pre.reverse.map Char.toLower
  | (_, none) => []

/-! ### Data model -/

/-- A link descriptor inside a row group: target URL and originating
column (`_group_hyperlinks` entries, the `cell` field elided). -/
structure Link where
  url : Str
  col : Nat
deriving DecidableEq

/-- A worksheet cell: coordinates and optional hyperlink target. -/
structure Cell where
  row : Nat
  col : Nat
  hyperlink : Option Str
deriving DecidableEq

/-- The worksheet cell grid, in `iter_rows` order (row-major). -/
structure Worksheet where
  cells : List Cell
deriving DecidableEq

/-- openpyxl `ws.max_column`: extent of the cell grid (at least 1);
embedded images do not create cells and do not extend it. -/
def Worksheet.maxColumn (ws : Worksheet) : Nat :=
  ws.cells.foldr (fun c m => max c.col m) 1

/-- openpyxl `ws.max_row`: row extent of the cell grid (at least 1). -/
def Worksheet.maxRow (ws : Worksheet) : Nat :=
  ws.cells.foldr (fun c m => max c.row m) 1

/-- Well-formedness openpyxl guarantees: 1-based coordinates and at most
one cell per coordinate pair. -/
def Worksheet.WF (ws : Worksheet) : Prop :=
  (∀ c ∈ ws.cells, 1 ≤ c.row ∧ 1 ≤ c.col) ∧
    (ws.cells.map fun c => (c.row, c.col)).Nodup

instance (ws : Worksheet) : Decidable ws.WF := by
  unfold Worksheet.WF; infer_instance

/-! ### Log events and effects -/

/-- Log events emitted by `_process_single_link`, with the row/column/url
context the format strings carry. -/
inductive LogEvent where
  | unrecognizedType (url : Str) (row col : Nat)
  | skippedVideo (url : Str) (row col : Nat)
  | unsupportedType (ext : Str) (row col : Nat)
  | downloadFailed (url : Str) (row col : Nat)
  | processingError (url : Str) (row col : Nat)
deriving DecidableEq

/-- Observable side effects of one run. -/
inductive Effect where
  | mkdirTemp
  | dependencyCheck
  | netGet (url : Str)
  | scratchWrite (path : Str)
  | insertImage (path : Str) (row col width height : Nat)
  | log (e : LogEvent)
deriving DecidableEq

/-- Python exceptions the worker can raise internally: a
`requests.exceptions.RequestException` or any other `Exception`. -/
inductive PyExc where
  | requestException
  | otherException
deriving DecidableEq

/-- The video extension set of `process_excel_hyperlinks`. -/
def videoExts : List Str :=
  ["mp4".data, "avi".data, "mov".data, "mkv".data, "wmv".data]

/-- The raster-image extension set of `_process_single_link`. -/
def imageExts : List Str := ["jpg".data, "jpeg".data, "png".data]

/-- Per-link environment: whether `requests.get` + `raise_for_status`
succeeds, what `convert_from_path` yields for a PDF (`none` models the
call raising), and whether saving/embedding image number `j` raises
(`j` is the 1-based PDF page, or 1 for a single raster image). -/
structure LinkEnv where
  fetchOk : Bool
  pdfPages : Option Nat
  embedFails : Nat → Bool

/-- The `f"row{row}_col{col}"` stem shared by both scratch-file name
patterns. -/
def fileStem (row col : Nat) : Str :=
  'r' :: 'o' :: 'w' :: (natStr row ++ '_' :: ('c' :: 'o' :: 'l' :: natStr col))

/-- Scratch path of the downloaded bytes:
`os.path.join(temp_dir, f"row{row}_col{col}.{ext}")`. -/
def scratchFile (tempDir : Str) (row col : Nat) (ext : Str) : Str :=
  tempDir ++ '/' :: (fileStem row col ++ '.' :: ext)

/-- Scratch path of a rasterized PDF page:
`os.path.join(temp_dir, f"row{row}_col{col}_p{page}.jpg")`. -/
def pageFile (tempDir : Str) (row col page : Nat) : Str :=
  tempDir ++ '/' :: (fileStem row col ++ '_' :: ('p' :: (natStr page ++ ".jpg".data)))

/-- Effects of handling one PDF page `j`: save the page JPEG and insert
it at column `startCol + j - 1`. -/
def pageEffects (tempDir : Str) (row origCol startCol j : Nat) : List Effect :=
  [Effect.scratchWrite (pageFile tempDir row origCol j),
   Effect.insertImage (pageFile tempDir row origCol j) row (startCol + j - 1) 180 120]

/-- The PDF page loop of `_process_single_link`: process `remaining`
pages starting at page number `j`; each page saves a JPEG to scratch and
inserts it at column `startCol + page - 1`.  An exception while handling
page `j` (modelled by `embedFails j`) aborts the loop. -/
def pdfLoop (env : LinkEnv) (tempDir : Str) (row origCol startCol : Nat) :
    Nat → Nat → List Effect × Option PyExc
  | _, 0 => ([], none)
  | j, remaining + 1 =>
    if env.embedFails j then ([], some PyExc.otherException)
    else
      let rest := pdfLoop env tempDir row origCol startCol (j + 1) remaining
      (pageEffects tempDir row origCol startCol j ++ rest.1, rest.2)

/-- Body of `_process_single_link` (the code inside the `try`): effects
performed, and the exception escaping the body, if any. -/
def workerBody (env : LinkEnv) (tempDir : Str) (link : Link) (row startCol : Nat) :
    List Effect × Option PyExc :=
  let net := [Effect.netGet link.url]
  if ¬ env.fetchOk then (net, some PyExc.requestException)
  else
    let ext := getFileExtension link.url
    if ext = [] then
      (net ++ [Effect.log (LogEvent.unrecognizedType link.url row link.col)], none)
    else if ext ∈ videoExts then
      (net ++ [Effect.log (LogEvent.skippedVideo link.url row link.col)], none)
    else
      let fp := scratchFile tempDir row link.col ext
      let dl := net ++ [Effect.scratchWrite fp]
      if ext = "pdf".data then
        match env.pdfPages with
        | none => (dl, some PyExc.otherException)
        | some k =>
          let loop := pdfLoop env tempDir row link.col startCol 1 k
          (dl ++ loop.1, loop.2)
      else if ext ∈ imageExts then
        if env.embedFails 1 then (dl, some PyExc.otherException)
        else (dl ++ [Effect.insertImage fp row startCol 180 120], none)
      else
        (dl ++ [Effect.log (LogEvent.unsupportedType ext row link.col)], none)

/-- `_process_single_link` with its `try/except`: a
`RequestException` is logged as a download failure, any other exception
as a processing error; nothing propagates. -/
def processSingleLink (env : LinkEnv) (tempDir : Str) (link : Link) (row startCol : Nat) :
    List Effect :=
  match workerBody env tempDir link row startCol with
  | (effs, none) => effs
  | (effs, some PyExc.requestException) =>
    effs ++ [Effect.log (LogEvent.downloadFailed link.url row link.col)]
  | (effs, some PyExc.otherException) =>
    effs ++ [Effect.log (LogEvent.processingError link.url row link.col)]

/-! ### Grouping, sorting, column allocation, dispatch -/

/-- Append a link to the group of row `r` (Python dict insertion-order
semantics: existing key keeps its place, new key goes last). -/
def addLink (r : Nat) (l : Link) : List (Nat × List Link) → List (Nat × List Link)
  | [] => [(r, [l])]
  | (r', ls) :: rest =>
    if r' = r then (r', ls ++ [l]) :: rest else (r', ls) :: addLink r l rest

/-- One step of `_group_hyperlinks`: a hyperlinked cell contributes a
link entry to its row's group, any other cell is skipped. -/
def groupStep (acc : List (Nat × List Link)) (c : Cell) : List (Nat × List Link) :=
  match c.hyperlink with
  | some u => addLink c.row ⟨u, c.col⟩ acc
  | none => acc

/-- `_group_hyperlinks`: fold over the cell grid in iteration order,
collecting hyperlinked cells into per-row groups. -/
def groupHyperlinks (cells : List Cell) : List (Nat × List Link) :=
  cells.foldl groupStep []

/-- Stable insertion into a column-sorted link list. -/
def insertByCol (l : Link) : List Link → List Link
  | [] => [l]
  | x :: xs => if l.col ≤ x.col then l :: x :: xs else x :: insertByCol l xs

/-- `links.sort(key=lambda x: x["col"])`: stable ascending sort by
originating column. -/
def sortByCol (ls : List Link) : List Link := ls.foldr insertByCol []

/-- Maximum column among hyperlinked cells of `row` (0 when none), the
loop of `_find_insert_start_col`. -/
def maxHyperlinkCol (ws : Worksheet) (row : Nat) : Nat :=
  (ws.cells.filter fun c => c.row = row).foldl
    (fun m c => if c.hyperlink.isSome then max m c.col else m) 0

/-- `_find_insert_start_col`. -/
def findInsertStartCol (ws : Worksheet) (row linkCount : Nat) : Nat :=
  (if linkCount > 0 then maxHyperlinkCol ws row else 0) + 1

/-- Columns of hyperlinked cells in `row`. -/
def hyperlinkCols (ws : Worksheet) (row : Nat) : List Nat :=
  (ws.cells.filter fun c => c.row = row ∧ c.hyperlink.isSome).map fun c => c.col

/-- Modelled from the spec (§4.2, claim C1): the *first* column index
from which a contiguous block of `n` columns avoids every column already
holding a hyperlink in the row. -/
def specFirstFit (ws : Worksheet) (row n : Nat) : Nat :=
  (((List.range (findInsertStartCol ws row n)).map fun i => i + 1).find? fun s =>
      (List.range n).all fun j => decide ((s + j) ∉ hyperlinkCols ws row)).getD
    (findInsertStartCol ws row n)

/-- A dispatched task: the link, its row, and its reserved column
(`start_col + idx`). -/
structure Task where
  link : Link
  row : Nat
  startCol : Nat
deriving DecidableEq

/-- Tasks of one row, in dispatch order: the idx-th sorted link gets
reserved column `sc + idx`. -/
def rowTasksAux (row : Nat) : Nat → List Link → List Task
  | _, [] => []
  | sc, l :: ls => ⟨l, row, sc⟩ :: rowTasksAux row (sc + 1) ls

/-- The submission loop body for one row of `process_excel_hyperlinks`. -/
def rowTasks (ws : Worksheet) (row : Nat) (links : List Link) : List Task :=
  rowTasksAux row (findInsertStartCol ws row links.length) (sortByCol links)

/-- All dispatched tasks of a run, in submission order. -/
def dispatch (ws : Worksheet) : List Task :=
  ((groupHyperlinks ws.cells).map fun g => rowTasks ws g.1 g.2).flatten

/-! ### Orchestrator -/

/-- Per-run environment: the directory listing of the configured Poppler
path, and the per-link environment keyed by the link's (row,
originating column) cell. -/
structure RunEnv where
  popplerBin : List Str
  linkEnv : Nat → Nat → LinkEnv

/-- Files `_validate_poppler` requires. -/
def requiredPopplerFiles : List Str := ["pdftoppm.exe".data, "pdfinfo.exe".data]

/-- `_validate_poppler`: no required file may be missing from the
listing. -/
def validatePoppler (bins : List Str) : Bool :=
  requiredPopplerFiles.all fun f => f ∈ bins

/-- Fatal run errors in scope of the model. -/
inductive RunError where
  | dependencyMissing
deriving DecidableEq

/-- An image anchored in the output document. -/
structure Placement where
  path : Str
  row : Nat
  col : Nat
  width : Nat
  height : Nat
deriving DecidableEq

/-- The saved output document: embedded images plus the explicit
column-width and row-height entries `_adjust_dimensions` created. -/
structure OutputDoc where
  images : List Placement
  colWidths : List (Nat × Nat)
  rowHeights : List (Nat × Nat)
deriving DecidableEq

/-- Result of a run: a fatal pre-flight error, or the saved document. -/
inductive RunResult where
  | fatal (e : RunError)
  | saved (doc : OutputDoc)
deriving DecidableEq

/-- Image placements among a list of effects. -/
def insertsOf : List Effect → List Placement
  | [] => []
  | Effect.insertImage p r c w h :: rest => ⟨p, r, c, w, h⟩ :: insertsOf rest
  | _ :: rest => insertsOf rest

/-- (row, column) anchors of the image insertions among effects. -/
def insertCells : List Effect → List (Nat × Nat)
  | [] => []
  | Effect.insertImage _ r c _ _ :: rest => (r, c) :: insertCells rest
  | _ :: rest => insertCells rest

/-- Scratch-store paths written among effects. -/
def scratchPaths : List Effect → List Str
  | [] => []
  | Effect.scratchWrite p :: rest => p :: scratchPaths rest
  | _ :: rest => scratchPaths rest

/-- URLs fetched among effects. -/
def netGets : List Effect → List Str
  | [] => []
  | Effect.netGet u :: rest => u :: netGets rest
  | _ :: rest => netGets rest

/-- Log events among effects. -/
def logsOf : List Effect → List LogEvent
  | [] => []
  | Effect.log ev :: rest => ev :: logsOf rest
  | _ :: rest => logsOf rest

/-- Effects of one dispatched task. -/
def taskEffects (env : RunEnv) (tempDir : Str) (t : Task) : List Effect :=
  processSingleLink (env.linkEnv t.row t.link.col) tempDir t.link t.row t.startCol

/-- `process_excel_hyperlinks`: make the scratch directory, validate
Poppler (fatal on failure), dispatch one worker per link, wait, then
normalize dimensions (`_adjust_dimensions`: width 25 for columns
`1..max_column`, height 120 for rows `1..max_row`) and save. -/
def processExcelHyperlinks (env : RunEnv) (tempDir : Str) (ws : Worksheet) :
    List Effect × RunResult :=
  let pre := [Effect.mkdirTemp, Effect.dependencyCheck]
  if ¬ validatePoppler env.popplerBin then (pre, RunResult.fatal RunError.dependencyMissing)
  else
    let effs := pre ++ ((dispatch ws).map (taskEffects env tempDir)).flatten
    (effs,
      RunResult.saved
        ⟨insertsOf effs,
          (List.range ws.maxColumn).map fun i => (i + 1, 25),
          (List.range ws.maxRow).map fun i => (i + 1, 120)⟩)

/-- Shape invariant of effects a worker may emit: never the scratch-dir
creation or the dependency check, and any image insertion is anchored in
the worker's own row, at or right of its reserved column, hard-sized
180×120. -/
def taskEffectOK (row sc : Nat) : Effect → Prop
  | Effect.insertImage _ r c w h => r = row ∧ sc ≤ c ∧ w = 180 ∧ h = 120
  | Effect.mkdirTemp => False
  | Effect.dependencyCheck => False
  | _ => True

/-- Error-level log events (`logging.error` calls of the two `except`
clauses). -/
def isErrorLog : LogEvent → Bool
  | LogEvent.downloadFailed _ _ _ => true
  | LogEvent.processingError _ _ _ => true
  | _ => false

/-- (row, column) keys of the hyperlinked cells, in grid order. -/
def hyperKeys : List Cell → List (Nat × Nat)
  | [] => []
  | c :: cs =>
    match c.hyperlink with
    | some _ => (c.row, c.col) :: hyperKeys cs
    | none => hyperKeys cs

/-- (row, originating column) keys of all links collected in a row-group
list. -/
def groupCellKeys (g : List (Nat × List Link)) : List (Nat × Nat) :=
  (g.map fun gr => gr.2.map fun l => (gr.1, l.col)).flatten

/-! ## Lemmas about decimal rendering -/

theorem digitChar_isDigit {d : Nat} (h : d < 10) : (digitChar d).isDigit = true := by
  interval_cases d <;> decide

theorem digitChar_toNat {d : Nat} (h : d < 10) : (digitChar d).toNat = 48 + d := by
  interval_cases d <;> decide

theorem natStrAux_digits : ∀ fuel n, ∀ c ∈ natStrAux fuel n, c.isDigit = true := by
  intro fuel
  induction fuel with
  | zero => intro n c hc; simp [natStrAux] at hc
  | succ f ih =>
    intro n c hc
    by_cases h0 : n = 0
    · simp [natStrAux, h0] at hc
    · simp only [natStrAux, if_neg h0, List.mem_append, List.mem_singleton] at hc
      rcases hc with hc | hc
      · exact ih _ c hc
      · subst hc; exact digitChar_isDigit (Nat.mod_lt _ (by norm_num))

theorem natStr_digits (n : Nat) : ∀ c ∈ natStr n, c.isDigit = true := by
  by_cases h0 : n = 0
  · subst h0; intro c hc; simp [natStr] at hc; subst hc; decide
  · intro c hc
    simp only [natStr, if_neg h0] at hc
    exact natStrAux_digits n n c hc

theorem decodeNat_append (s : Str) (c : Char) :
    decodeNat (s ++ [c]) = decodeNat s * 10 + (c.toNat - 48) := by
  simp [decodeNat, List.foldl_append]

theorem decode_natStrAux : ∀ fuel n, n ≤ fuel → decodeNat (natStrAux fuel n) = n := by
  intro fuel
  induction fuel with
  | zero =>
    intro n hn
    have : n = 0 := Nat.le_zero.mp hn
    subst this; rfl
  | succ f ih =>
    intro n hn
    by_cases h0 : n = 0
    · subst h0; rfl
    · have hdiv : n / 10 ≤ f := by
        have : n / 10 < n := Nat.div_lt_self (Nat.pos_of_ne_zero h0) (by norm_num)
        omega
      have hmod : n % 10 < 10 := Nat.mod_lt _ (by norm_num)
      simp only [natStrAux, if_neg h0, decodeNat_append, ih _ hdiv, digitChar_toNat hmod]
      omega

theorem decode_natStr (n : Nat) : decodeNat (natStr n) = n := by
  by_cases h0 : n = 0
  · subst h0; rfl
  · simp only [natStr, if_neg h0]
    exact decode_natStrAux n n le_rfl

theorem natStr_injective {n m : Nat} (h : natStr n = natStr m) : n = m := by
  have := congrArg decodeNat h
  rwa [decode_natStr, decode_natStr] at this

/-! ## Splitting appended lists at a non-digit separator -/

theorem append_sep_inj :
    ∀ (l1 l2 t1 t2 : Str) (a b : Char),
      (∀ c ∈ l1, c.isDigit = true) → (∀ c ∈ l2, c.isDigit = true) →
      ¬ a.isDigit = true → ¬ b.isDigit = true →
      l1 ++ a :: t1 = l2 ++ b :: t2 → l1 = l2 ∧ a = b ∧ t1 = t2 := by
  intro l1
  induction l1 with
  | nil =>
    intro l2 t1 t2 a b _ h2 ha hb h
    cases l2 with
    | nil =>
      simp only [List.nil_append, List.cons.injEq] at h
      exact ⟨rfl, h.1, h.2⟩
    | cons y ys =>
      simp only [List.nil_append, List.cons_append, List.cons.injEq] at h
      exact absurd (h.1 ▸ h2 y (List.mem_cons_self y ys)) ha
  | cons x xs ih =>
    intro l2 t1 t2 a b h1 h2 ha hb h
    cases l2 with
    | nil =>
      simp only [List.cons_append, List.nil_append, List.cons.injEq] at h
      exact absurd (h.1 ▸ h1 x (List.mem_cons_self x xs)) hb
    | cons y ys =>
      simp only [List.cons_append, List.cons.injEq] at h
      obtain ⟨hxy, hrest⟩ := h
      have := ih ys t1 t2 a b (fun c hc => h1 c (List.mem_cons_of_mem x hc))
        (fun c hc => h2 c (List.mem_cons_of_mem y hc)) ha hb hrest
      exact ⟨by rw [hxy, this.1], this.2.1, this.2.2⟩

theorem fileStem_sep_inj {row col row' col' : Nat} {c c' : Char} {t t' : Str}
    (hc : ¬ c.isDigit = true) (hc' : ¬ c'.isDigit = true)
    (h : fileStem row col ++ c :: t = fileStem row' col' ++ c' :: t') :
    row = row' ∧ col = col' := by
  unfold fileStem at h
  simp only [List.cons_append, List.append_assoc, List.cons.injEq, true_and] at h
  have h1 := append_sep_inj (natStr row) (natStr row') _ _ '_' '_'
    (natStr_digits row) (natStr_digits row') (by decide) (by decide) h
  obtain ⟨hrow, -, hrest⟩ := h1
  simp only [List.cons.injEq, true_and] at hrest
  have h2 := append_sep_inj (natStr col) (natStr col') t t' c c'
    (natStr_digits col) (natStr_digits col') hc hc' hrest
  exact ⟨natStr_injective hrow, natStr_injective h2.1⟩

/-- Any two scratch paths written for different cells differ: the path
determines the (row, originating column) key. -/
theorem scratch_path_key {tempDir : Str} {row col row' col' : Nat} {c c' : Char}
    {t t' : Str} (hc : ¬ c.isDigit = true) (hc' : ¬ c'.isDigit = true)
    (h : tempDir ++ '/' :: (fileStem row col ++ c :: t)
       = tempDir ++ '/' :: (fileStem row' col' ++ c' :: t')) :
    row = row' ∧ col = col' := by
  have h' := List.append_cancel_left h
  simp only [List.cons.injEq, true_and] at h'
  exact fileStem_sep_inj hc hc' h'

/-! ## Effect-extraction distribution lemmas -/

theorem insertCells_append (l1 l2 : List Effect) :
    insertCells (l1 ++ l2) = insertCells l1 ++ insertCells l2 := by
  induction l1 with
  | nil => rfl
  | cons e rest ih => cases e <;> simp [insertCells, ih]

theorem insertsOf_append (l1 l2 : List Effect) :
    insertsOf (l1 ++ l2) = insertsOf l1 ++ insertsOf l2 := by
  induction l1 with
  | nil => rfl
  | cons e rest ih => cases e <;> simp [insertsOf, ih]

theorem logsOf_append (l1 l2 : List Effect) :
    logsOf (l1 ++ l2) = logsOf l1 ++ logsOf l2 := by
  induction l1 with
  | nil => rfl
  | cons e rest ih => cases e <;> simp [logsOf, ih]

theorem scratchPaths_append (l1 l2 : List Effect) :
    scratchPaths (l1 ++ l2) = scratchPaths l1 ++ scratchPaths l2 := by
  induction l1 with
  | nil => rfl
  | cons e rest ih => cases e <;> simp [scratchPaths, ih]

theorem netGets_append (l1 l2 : List Effect) :
    netGets (l1 ++ l2) = netGets l1 ++ netGets l2 := by
  induction l1 with
  | nil => rfl
  | cons e rest ih => cases e <;> simp [netGets, ih]

/-! ## PDF loop lemmas -/

theorem pdfLoop_span (env : LinkEnv) (td : Str) (row oc sc : Nat) :
    ∀ remaining j, ∃ m, m ≤ remaining ∧
      (pdfLoop env td row oc sc j remaining).1
        = ((List.range m).map fun p => pageEffects td row oc sc (j + p)).flatten ∧
      ((pdfLoop env td row oc sc j remaining).2 = none → m = remaining) := by
  intro remaining
  induction remaining with
  | zero => exact fun j => ⟨0, le_rfl, rfl, fun _ => rfl⟩
  | succ r ih =>
    intro j
    by_cases hf : env.embedFails j
    · refine ⟨0, Nat.zero_le _, ?_, ?_⟩
      · simp [pdfLoop, hf]
      · intro h; simp [pdfLoop, hf] at h
    · rw [Bool.not_eq_true] at hf
      obtain ⟨m, hm, heff, hexc⟩ := ih (j + 1)
      refine ⟨m + 1, by omega, ?_, ?_⟩
      · have hstep : (pdfLoop env td row oc sc j (r + 1)).1
            = pageEffects td row oc sc j ++ (pdfLoop env td row oc sc (j + 1) r).1 := by
          simp [pdfLoop, hf]
        rw [hstep, heff, List.range_succ_eq_map, List.map_cons, List.flatten_cons,
          List.map_map]
        have hfun : ((fun p => pageEffects td row oc sc (j + p)) ∘ Nat.succ)
            = fun p => pageEffects td row oc sc (j + 1 + p) := by
          funext p
          simp only [Function.comp_apply]
          congr 1
          omega
        rw [hfun]
        simp
      · have hstep : (pdfLoop env td row oc sc j (r + 1)).2
            = (pdfLoop env td row oc sc (j + 1) r).2 := by
          simp [pdfLoop, hf]
        rw [hstep]
        intro h
        rw [hexc h]

theorem pdfLoop_success (env : LinkEnv) (td : Str) (row oc sc : Nat) :
    ∀ remaining j, (∀ i, j ≤ i → i < j + remaining → env.embedFails i = false) →
      pdfLoop env td row oc sc j remaining
        = (((List.range remaining).map fun p => pageEffects td row oc sc (j + p)).flatten,
          none) := by
  intro remaining
  induction remaining with
  | zero => exact fun j _ => rfl
  | succ r ih =>
    intro j hok
    have hf : env.embedFails j = false := hok j le_rfl (by omega)
    have hrest := ih (j + 1) fun i h1 h2 => hok i (by omega) (by omega)
    have hstep : pdfLoop env td row oc sc j (r + 1)
        = (pageEffects td row oc sc j ++ (pdfLoop env td row oc sc (j + 1) r).1,
          (pdfLoop env td row oc sc (j + 1) r).2) := by
      simp [pdfLoop, hf]
    rw [hstep, hrest]
    refine Prod.ext ?_ rfl
    show pageEffects td row oc sc j ++ _ = _
    rw [List.range_succ_eq_map, List.map_cons, List.flatten_cons, List.map_map]
    have hfun : ((fun p => pageEffects td row oc sc (j + p)) ∘ Nat.succ)
        = fun p => pageEffects td row oc sc (j + 1 + p) := by
      funext p
      simp only [Function.comp_apply]
      congr 1
      omega
    rw [hfun]
    simp

theorem insertCells_pageFlatten (td : Str) (row oc sc : Nat) :
    ∀ m j, insertCells (((List.range m).map fun p => pageEffects td row oc sc (j + p)).flatten)
      = (List.range m).map fun p => (row, sc + (j + p) - 1) := by
  intro m
  induction m with
  | zero => exact fun j => rfl
  | succ m ih =>
    intro j
    rw [List.range_succ, List.map_append, List.flatten_append, insertCells_append, ih,
      List.map_append]
    rfl

theorem insertsOf_pageFlatten (td : Str) (row oc sc : Nat) :
    ∀ m j, insertsOf (((List.range m).map fun p => pageEffects td row oc sc (j + p)).flatten)
      = (List.range m).map fun p =>
          ⟨pageFile td row oc (j + p), row, sc + (j + p) - 1, 180, 120⟩ := by
  intro m
  induction m with
  | zero => exact fun j => rfl
  | succ m ih =>
    intro m_1
    rw [List.range_succ, List.map_append, List.flatten_append, insertsOf_append, ih,
      List.map_append]
    rfl

theorem logsOf_pageFlatten (td : Str) (row oc sc : Nat) :
    ∀ m j, logsOf (((List.range m).map fun p => pageEffects td row oc sc (j + p)).flatten)
      = [] := by
  intro m
  induction m with
  | zero => exact fun j => rfl
  | succ m ih =>
    intro j
    rw [List.range_succ, List.map_append, List.flatten_append, logsOf_append, ih]
    rfl

theorem scratchPaths_pageFlatten (td : Str) (row oc sc : Nat) :
    ∀ m j, scratchPaths (((List.range m).map fun p => pageEffects td row oc sc (j + p)).flatten)
      = (List.range m).map fun p => pageFile td row oc (j + p) := by
  intro m
  induction m with
  | zero => exact fun j => rfl
  | succ m ih =>
    intro j
    rw [List.range_succ, List.map_append, List.flatten_append, scratchPaths_append, ih,
      List.map_append]
    rfl

/-! ## Worker branch lemmas -/

theorem workerBody_fetchFail (env : LinkEnv) (td : Str) (link : Link) (row sc : Nat)
    (h : env.fetchOk = false) :
    workerBody env td link row sc = ([Effect.netGet link.url], some PyExc.requestException) := by
  simp [workerBody, h]

theorem workerBody_noExt (env : LinkEnv) (td : Str) (link : Link) (row sc : Nat)
    (h : env.fetchOk = true) (he : getFileExtension link.url = []) :
    workerBody env td link row sc
      = ([Effect.netGet link.url,
          Effect.log (LogEvent.unrecognizedType link.url row link.col)], none) := by
  simp [workerBody, h, he]

theorem workerBody_video (env : LinkEnv) (td : Str) (link : Link) (row sc : Nat)
    (h : env.fetchOk = true) (hv : getFileExtension link.url ∈ videoExts) :
    workerBody env td link row sc
      = ([Effect.netGet link.url,
          Effect.log (LogEvent.skippedVideo link.url row link.col)], none) := by
  have hne : getFileExtension link.url ≠ [] := by
    intro hh
    rw [hh] at hv
    exact absurd hv (by decide)
  simp [workerBody, h, hne, hv]

theorem workerBody_pdf_none (env : LinkEnv) (td : Str) (link : Link) (row sc : Nat)
    (h : env.fetchOk = true) (hp : getFileExtension link.url = "pdf".data)
    (hN : env.pdfPages = none) :
    workerBody env td link row sc
      = ([Effect.netGet link.url,
          Effect.scratchWrite (scratchFile td row link.col "pdf".data)],
        some PyExc.otherException) := by
  have hne : ("pdf".data : Str) ≠ [] := by decide
  have hnv : ("pdf".data : Str) ∉ videoExts := by decide
  simp [workerBody, h, hp, hne, hnv, hN]

theorem workerBody_pdf_some (env : LinkEnv) (td : Str) (link : Link) (row sc k : Nat)
    (h : env.fetchOk = true) (hp : getFileExtension link.url = "pdf".data)
    (hk : env.pdfPages = some k) :
    workerBody env td link row sc
      = (Effect.netGet link.url
          :: Effect.scratchWrite (scratchFile td row link.col "pdf".data)
          :: (pdfLoop env td row link.col sc 1 k).1,
        (pdfLoop env td row link.col sc 1 k).2) := by
  have hne : ("pdf".data : Str) ≠ [] := by decide
  have hnv : ("pdf".data : Str) ∉ videoExts := by decide
  simp [workerBody, h, hp, hne, hnv, hk]

theorem workerBody_image_ok (env : LinkEnv) (td : Str) (link : Link) (row sc : Nat)
    (h : env.fetchOk = true) (hi : getFileExtension link.url ∈ imageExts)
    (hf1 : env.embedFails 1 = false) :
    workerBody env td link row sc
      = ([Effect.netGet link.url,
          Effect.scratchWrite (scratchFile td row link.col (getFileExtension link.url)),
          Effect.insertImage (scratchFile td row link.col (getFileExtension link.url))
            row sc 180 120], none) := by
  have hfacts : ∀ e ∈ imageExts, e ≠ [] ∧ e ∉ videoExts ∧ e ≠ "pdf".data := by decide
  obtain ⟨hne, hnv, hnp⟩ := hfacts _ hi
  simp [workerBody, h, hne, hnv, hnp, hi, hf1]

theorem workerBody_image_fail (env : LinkEnv) (td : Str) (link : Link) (row sc : Nat)
    (h : env.fetchOk = true) (hi : getFileExtension link.url ∈ imageExts)
    (hf1 : env.embedFails 1 = true) :
    workerBody env td link row sc
      = ([Effect.netGet link.url,
          Effect.scratchWrite (scratchFile td row link.col (getFileExtension link.url))],
        some PyExc.otherException) := by
  have hfacts : ∀ e ∈ imageExts, e ≠ [] ∧ e ∉ videoExts ∧ e ≠ "pdf".data := by decide
  obtain ⟨hne, hnv, hnp⟩ := hfacts _ hi
  simp [workerBody, h, hne, hnv, hnp, hi, hf1]

theorem workerBody_other (env : LinkEnv) (td : Str) (link : Link) (row sc : Nat)
    (h : env.fetchOk = true) (hne : getFileExtension link.url ≠ [])
    (hnv : getFileExtension link.url ∉ videoExts)
    (hnp : getFileExtension link.url ≠ "pdf".data)
    (hni : getFileExtension link.url ∉ imageExts) :
    workerBody env td link row sc
      = ([Effect.netGet link.url,
          Effect.scratchWrite (scratchFile td row link.col (getFileExtension link.url)),
          Effect.log (LogEvent.unsupportedType (getFileExtension link.url) row link.col)],
        none) := by
  simp [workerBody, h, hne, hnv, hnp, hni]

theorem psl_of_none {env : LinkEnv} {td : Str} {link : Link} {row sc : Nat}
    {effs : List Effect} (h : workerBody env td link row sc = (effs, none)) :
    processSingleLink env td link row sc = effs := by
  simp [processSingleLink, h]

theorem psl_of_req {env : LinkEnv} {td : Str} {link : Link} {row sc : Nat}
    {effs : List Effect}
    (h : workerBody env td link row sc = (effs, some PyExc.requestException)) :
    processSingleLink env td link row sc
      = effs ++ [Effect.log (LogEvent.downloadFailed link.url row link.col)] := by
  simp [processSingleLink, h]

theorem psl_of_other {env : LinkEnv} {td : Str} {link : Link} {row sc : Nat}
    {effs : List Effect}
    (h : workerBody env td link row sc = (effs, some PyExc.otherException)) :
    processSingleLink env td link row sc
      = effs ++ [Effect.log (LogEvent.processingError link.url row link.col)] := by
  simp [processSingleLink, h]

theorem pdfLoop_exc (env : LinkEnv) (td : Str) (row oc sc : Nat) :
    ∀ remaining j, (pdfLoop env td row oc sc j remaining).2 = none
      ∨ (pdfLoop env td row oc sc j remaining).2 = some PyExc.otherException := by
  intro remaining
  induction remaining with
  | zero => exact fun j => Or.inl rfl
  | succ r ih =>
    intro j
    by_cases hf : env.embedFails j
    · right; simp [pdfLoop, hf]
    · rw [Bool.not_eq_true] at hf
      have hstep : (pdfLoop env td row oc sc j (r + 1)).2
          = (pdfLoop env td row oc sc (j + 1) r).2 := by
        simp [pdfLoop, hf]
      rw [hstep]
      exact ih (j + 1)

/-- Exhaustive enumeration of `_process_single_link` outcomes. -/
theorem psl_cases (env : LinkEnv) (td : Str) (link : Link) (row sc : Nat) :
    (env.fetchOk = false ∧
      processSingleLink env td link row sc
        = [Effect.netGet link.url,
           Effect.log (LogEvent.downloadFailed link.url row link.col)]) ∨
    (env.fetchOk = true ∧ getFileExtension link.url = [] ∧
      processSingleLink env td link row sc
        = [Effect.netGet link.url,
           Effect.log (LogEvent.unrecognizedType link.url row link.col)]) ∨
    (env.fetchOk = true ∧ getFileExtension link.url ∈ videoExts ∧
      processSingleLink env td link row sc
        = [Effect.netGet link.url,
           Effect.log (LogEvent.skippedVideo link.url row link.col)]) ∨
    (env.fetchOk = true ∧ getFileExtension link.url = "pdf".data ∧ env.pdfPages = none ∧
      processSingleLink env td link row sc
        = [Effect.netGet link.url,
           Effect.scratchWrite (scratchFile td row link.col "pdf".data),
           Effect.log (LogEvent.processingError link.url row link.col)]) ∨
    (env.fetchOk = true ∧ getFileExtension link.url = "pdf".data ∧
      (∃ k, env.pdfPages = some k ∧
        (pdfLoop env td row link.col sc 1 k).2 = none ∧
        processSingleLink env td link row sc
          = Effect.netGet link.url
            :: Effect.scratchWrite (scratchFile td row link.col "pdf".data)
            :: (pdfLoop env td row link.col sc 1 k).1)) ∨
    (env.fetchOk = true ∧ getFileExtension link.url = "pdf".data ∧
      (∃ k, env.pdfPages = some k ∧
        (pdfLoop env td row link.col sc 1 k).2 = some PyExc.otherException ∧
        processSingleLink env td link row sc
          = (Effect.netGet link.url
              :: Effect.scratchWrite (scratchFile td row link.col "pdf".data)
              :: (pdfLoop env td row link.col sc 1 k).1)
            ++ [Effect.log (LogEvent.processingError link.url row link.col)])) ∨
    (env.fetchOk = true ∧ getFileExtension link.url ∈ imageExts ∧ env.embedFails 1 = false ∧
      processSingleLink env td link row sc
        = [Effect.netGet link.url,
           Effect.scratchWrite (scratchFile td row link.col (getFileExtension link.url)),
           Effect.insertImage (scratchFile td row link.col (getFileExtension link.url))
             row sc 180 120]) ∨
    (env.fetchOk = true ∧ getFileExtension link.url ∈ imageExts ∧ env.embedFails 1 = true ∧
      processSingleLink env td link row sc
        = [Effect.netGet link.url,
           Effect.scratchWrite (scratchFile td row link.col (getFileExtension link.url)),
           Effect.log (LogEvent.processingError link.url row link.col)]) ∨
    (env.fetchOk = true ∧ getFileExtension link.url ≠ [] ∧
      getFileExtension link.url ∉ videoExts ∧ getFileExtension link.url ≠ "pdf".data ∧
      getFileExtension link.url ∉ imageExts ∧
      processSingleLink env td link row sc
        = [Effect.netGet link.url,
           Effect.scratchWrite (scratchFile td row link.col (getFileExtension link.url)),
           Effect.log (LogEvent.unsupportedType (getFileExtension link.url) row link.col)]) := by
  by_cases hfo : env.fetchOk
  case neg =>
    rw [Bool.not_eq_true] at hfo
    exact Or.inl ⟨hfo, psl_of_req (workerBody_fetchFail env td link row sc hfo)⟩
  case pos =>
    by_cases hne : getFileExtension link.url = []
    · exact Or.inr (Or.inl ⟨hfo, hne, psl_of_none (workerBody_noExt env td link row sc hfo hne)⟩)
    by_cases hv : getFileExtension link.url ∈ videoExts
    · exact Or.inr (Or.inr (Or.inl
        ⟨hfo, hv, psl_of_none (workerBody_video env td link row sc hfo hv)⟩))
    by_cases hp : getFileExtension link.url = "pdf".data
    · cases hk : env.pdfPages with
      | none =>
        refine Or.inr (Or.inr (Or.inr (Or.inl ⟨hfo, hp, rfl, ?_⟩)))
        have := psl_of_other (workerBody_pdf_none env td link row sc hfo hp hk)
        rw [this]
        rfl
      | some k =>
        rcases pdfLoop_exc env td row link.col sc k 1 with hexc | hexc
        · refine Or.inr (Or.inr (Or.inr (Or.inr (Or.inl ⟨hfo, hp, k, rfl, hexc, ?_⟩))))
          refine psl_of_none ?_
          rw [workerBody_pdf_some env td link row sc k hfo hp hk, hexc]
        · refine Or.inr (Or.inr (Or.inr (Or.inr (Or.inr (Or.inl ⟨hfo, hp, k, rfl, hexc, ?_⟩)))))
          refine psl_of_other ?_
          rw [workerBody_pdf_some env td link row sc k hfo hp hk, hexc]
    by_cases hi : getFileExtension link.url ∈ imageExts
    · cases hf1 : env.embedFails 1 with
      | false =>
        refine Or.inr (Or.inr (Or.inr (Or.inr (Or.inr (Or.inr (Or.inl ⟨hfo, hi, rfl, ?_⟩))))))
        exact psl_of_none (workerBody_image_ok env td link row sc hfo hi hf1)
      | true =>
        refine Or.inr (Or.inr (Or.inr (Or.inr (Or.inr (Or.inr (Or.inr (Or.inl
          ⟨hfo, hi, rfl, ?_⟩)))))))
        have := psl_of_other (workerBody_image_fail env td link row sc hfo hi hf1)
        rw [this]
        rfl
    · refine Or.inr (Or.inr (Or.inr (Or.inr (Or.inr (Or.inr (Or.inr (Or.inr
        ⟨hfo, hne, hv, hp, hi, ?_⟩)))))))
      exact psl_of_none (workerBody_other env td link row sc hfo hne hv hp hi)

theorem pdfLoop_mem {env : LinkEnv} {td : Str} {row oc sc k : Nat} {e : Effect}
    (he : e ∈ (pdfLoop env td row oc sc 1 k).1) :
    ∃ p, e = Effect.scratchWrite (pageFile td row oc (1 + p))
      ∨ e = Effect.insertImage (pageFile td row oc (1 + p)) row (sc + (1 + p) - 1) 180 120 := by
  obtain ⟨m, -, heff, -⟩ := pdfLoop_span env td row oc sc k 1
  rw [heff, List.mem_flatten] at he
  obtain ⟨l, hl, hel⟩ := he
  rw [List.mem_map] at hl
  obtain ⟨p, -, rfl⟩ := hl
  simp only [pageEffects, List.mem_cons, List.not_mem_nil, or_false] at hel
  rcases hel with rfl | rfl
  · exact ⟨p, Or.inl rfl⟩
  · exact ⟨p, Or.inr rfl⟩

/-- Every effect of one worker satisfies the shape invariant. -/
theorem psl_mem (env : LinkEnv) (td : Str) (link : Link) (row sc : Nat) :
    ∀ e ∈ processSingleLink env td link row sc, taskEffectOK row sc e := by
  intro e he
  rcases psl_cases env td link row sc with
    ⟨-, hq⟩ | ⟨-, -, hq⟩ | ⟨-, -, hq⟩ | ⟨-, -, -, hq⟩ | ⟨-, -, k, -, -, hq⟩ |
    ⟨-, -, k, -, -, hq⟩ | ⟨-, -, -, hq⟩ | ⟨-, -, -, hq⟩ | ⟨-, -, -, -, -, hq⟩ <;>
    rw [hq] at he
  · rcases he with _ | ⟨_, _ | ⟨_, h⟩⟩ <;> first | exact trivial | cases h
  · rcases he with _ | ⟨_, _ | ⟨_, h⟩⟩ <;> first | exact trivial | cases h
  · rcases he with _ | ⟨_, _ | ⟨_, h⟩⟩ <;> first | exact trivial | cases h
  · rcases he with _ | ⟨_, _ | ⟨_, _ | ⟨_, h⟩⟩⟩ <;> first | exact trivial | cases h
  · rcases he with _ | ⟨_, _ | ⟨_, hloop⟩⟩
    · exact trivial
    · exact trivial
    · obtain ⟨p, hp | hp⟩ := pdfLoop_mem hloop <;> subst hp
      · exact trivial
      · exact ⟨rfl, by omega, rfl, rfl⟩
  · rw [List.mem_append] at he
    rcases he with he | he
    · rcases he with _ | ⟨_, _ | ⟨_, hloop⟩⟩
      · exact trivial
      · exact trivial
      · obtain ⟨p, hp | hp⟩ := pdfLoop_mem hloop <;> subst hp
        · exact trivial
        · exact ⟨rfl, by omega, rfl, rfl⟩
    · rcases he with _ | ⟨_, h⟩
      · exact trivial
      · cases h
  · rcases he with _ | ⟨_, _ | ⟨_, _ | ⟨_, h⟩⟩⟩
    · exact trivial
    · exact trivial
    · exact ⟨rfl, le_rfl, rfl, rfl⟩
    · cases h
  · rcases he with _ | ⟨_, _ | ⟨_, _ | ⟨_, h⟩⟩⟩ <;> first | exact trivial | cases h
  · rcases he with _ | ⟨_, _ | ⟨_, _ | ⟨_, h⟩⟩⟩ <;> first | exact trivial | cases h

theorem insertCells_pdfLoop (env : LinkEnv) (td : Str) (row oc sc k : Nat) :
    ∃ m, insertCells (pdfLoop env td row oc sc 1 k).1
      = (List.range m).map fun p => (row, sc + p) := by
  obtain ⟨m, -, heff, -⟩ := pdfLoop_span env td row oc sc k 1
  refine ⟨m, ?_⟩
  rw [heff, insertCells_pageFlatten]
  have hfun : (fun p => (row, sc + (1 + p) - 1)) = fun p => (row, sc + p) := by
    funext p
    simp only [Prod.mk.injEq, true_and]
    omega
  rw [hfun]

/-- The (row, column) anchors a worker inserts at form a contiguous range
starting at its reserved column, in its own row. -/
theorem psl_insertCells (env : LinkEnv) (td : Str) (link : Link) (row sc : Nat) :
    ∃ m, insertCells (processSingleLink env td link row sc)
      = (List.range m).map fun p => (row, sc + p) := by
  rcases psl_cases env td link row sc with
    ⟨-, hq⟩ | ⟨-, -, hq⟩ | ⟨-, -, hq⟩ | ⟨-, -, -, hq⟩ | ⟨-, -, k, -, -, hq⟩ |
    ⟨-, -, k, -, -, hq⟩ | ⟨-, -, -, hq⟩ | ⟨-, -, -, hq⟩ | ⟨-, -, -, -, -, hq⟩
  · exact ⟨0, by rw [hq]; rfl⟩
  · exact ⟨0, by rw [hq]; rfl⟩
  · exact ⟨0, by rw [hq]; rfl⟩
  · exact ⟨0, by rw [hq]; rfl⟩
  · obtain ⟨m, hm⟩ := insertCells_pdfLoop env td row link.col sc k
    refine ⟨m, ?_⟩
    rw [hq]
    exact hm
  · obtain ⟨m, hm⟩ := insertCells_pdfLoop env td row link.col sc k
    refine ⟨m, ?_⟩
    rw [hq, insertCells_append]
    have h2 : insertCells [Effect.log (LogEvent.processingError link.url row link.col)]
        = [] := rfl
    rw [h2, List.append_nil]
    exact hm
  · exact ⟨1, by rw [hq]; rfl⟩
  · exact ⟨0, by rw [hq]; rfl⟩
  · exact ⟨0, by rw [hq]; rfl⟩

/-- Every scratch path a worker writes starts with the worker's own
(row, originating column) file stem, followed by a non-digit character. -/
theorem psl_scratchPaths (env : LinkEnv) (td : Str) (link : Link) (row sc : Nat) :
    ∀ q ∈ scratchPaths (processSingleLink env td link row sc),
      ∃ c t, ¬(c.isDigit = true) ∧ q = td ++ '/' :: (fileStem row link.col ++ c :: t) := by
  have hscratch : ∀ ext, scratchFile td row link.col ext
      = td ++ '/' :: (fileStem row link.col ++ '.' :: ext) := fun _ => rfl
  have hpage : ∀ pg, pageFile td row link.col pg
      = td ++ '/' :: (fileStem row link.col ++ '_' :: ('p' :: (natStr pg ++ ".jpg".data))) :=
    fun _ => rfl
  intro q hqmem
  rcases psl_cases env td link row sc with
    ⟨-, hq⟩ | ⟨-, -, hq⟩ | ⟨-, -, hq⟩ | ⟨-, -, -, hq⟩ | ⟨-, -, k, -, -, hq⟩ |
    ⟨-, -, k, -, -, hq⟩ | ⟨-, -, -, hq⟩ | ⟨-, -, -, hq⟩ | ⟨-, -, -, -, -, hq⟩ <;>
    rw [hq] at hqmem <;> simp only [scratchPaths, List.mem_cons, List.not_mem_nil,
      or_false, false_or] at hqmem
  · subst hqmem
    exact ⟨'.', _, by decide, hscratch _⟩
  · rcases hqmem with rfl | hqmem
    · exact ⟨'.', _, by decide, hscratch _⟩
    · obtain ⟨m, -, heff, -⟩ := pdfLoop_span env td row link.col sc k 1
      rw [heff, scratchPaths_pageFlatten, List.mem_map] at hqmem
      obtain ⟨p, -, rfl⟩ := hqmem
      exact ⟨'_', _, by decide, hpage _⟩
  · rcases hqmem with rfl | hqmem
    · exact ⟨'.', _, by decide, hscratch _⟩
    · rw [List.append_eq, scratchPaths_append] at hqmem
      rcases List.mem_append.mp hqmem with hqmem | hqmem
      · obtain ⟨m, -, heff, -⟩ := pdfLoop_span env td row link.col sc k 1
        rw [heff, scratchPaths_pageFlatten, List.mem_map] at hqmem
        obtain ⟨p, -, rfl⟩ := hqmem
        exact ⟨'_', _, by decide, hpage _⟩
      · exact absurd hqmem (by simp [scratchPaths])
  · subst hqmem
    exact ⟨'.', _, by decide, hscratch _⟩
  · subst hqmem
    exact ⟨'.', _, by decide, hscratch _⟩
  · subst hqmem
    exact ⟨'.', _, by decide, hscratch _⟩

/-- No `logging.error` event is emitted inside the `try` body: error
logs come only from the two `except` clauses. -/
theorem workerBody_logs (env : LinkEnv) (td : Str) (link : Link) (row sc : Nat) :
    ∀ ev ∈ logsOf (workerBody env td link row sc).1, isErrorLog ev = false := by
  intro ev hev
  by_cases hfo : env.fetchOk
  case neg =>
    rw [Bool.not_eq_true] at hfo
    rw [workerBody_fetchFail env td link row sc hfo] at hev
    simp [logsOf] at hev
  case pos =>
    by_cases hne : getFileExtension link.url = []
    · rw [workerBody_noExt env td link row sc hfo hne] at hev
      simp only [logsOf, List.mem_cons, List.not_mem_nil, or_false] at hev
      subst hev
      rfl
    by_cases hv : getFileExtension link.url ∈ videoExts
    · rw [workerBody_video env td link row sc hfo hv] at hev
      simp only [logsOf, List.mem_cons, List.not_mem_nil, or_false] at hev
      subst hev
      rfl
    by_cases hp : getFileExtension link.url = "pdf".data
    · cases hk : env.pdfPages with
      | none =>
        rw [workerBody_pdf_none env td link row sc hfo hp hk] at hev
        simp [logsOf] at hev
      | some k =>
        rw [workerBody_pdf_some env td link row sc k hfo hp hk] at hev
        simp only [logsOf] at hev
        obtain ⟨m, -, heff, -⟩ := pdfLoop_span env td row link.col sc k 1
        rw [heff, logsOf_pageFlatten] at hev
        exact absurd hev (List.not_mem_nil ev)
    by_cases hi : getFileExtension link.url ∈ imageExts
    · cases hf1 : env.embedFails 1 with
      | false =>
        rw [workerBody_image_ok env td link row sc hfo hi hf1] at hev
        simp [logsOf] at hev
      | true =>
        rw [workerBody_image_fail env td link row sc hfo hi hf1] at hev
        simp [logsOf] at hev
    · rw [workerBody_other env td link row sc hfo hne hv hp hi] at hev
      simp only [logsOf, List.mem_cons, List.not_mem_nil, or_false] at hev
      subst hev
      rfl

/-! ## Sorting lemmas -/

theorem insertByCol_perm (l : Link) (ls : List Link) :
    List.Perm (insertByCol l ls) (l :: ls) := by
  induction ls with
  | nil => exact List.Perm.refl _
  | cons x xs ih =>
    by_cases h : l.col ≤ x.col
    · rw [insertByCol, if_pos h]
    · rw [insertByCol, if_neg h]
      exact (ih.cons x).trans (List.Perm.swap l x xs)

theorem sortByCol_perm (ls : List Link) : List.Perm (sortByCol ls) ls := by
  induction ls with
  | nil => exact List.Perm.refl _
  | cons a as ih =>
    have hdef : sortByCol (a :: as) = insertByCol a (sortByCol as) := rfl
    rw [hdef]
    exact (insertByCol_perm a (sortByCol as)).trans (ih.cons a)

theorem insertByCol_sorted (l : Link) (ls : List Link)
    (h : ls.Pairwise fun a b => a.col ≤ b.col) :
    (insertByCol l ls).Pairwise fun a b => a.col ≤ b.col := by
  induction ls with
  | nil => simp [insertByCol]
  | cons x xs ih =>
    rw [List.pairwise_cons] at h
    obtain ⟨hx, hxs⟩ := h
    by_cases hle : l.col ≤ x.col
    · rw [insertByCol, if_pos hle, List.pairwise_cons]
      refine ⟨?_, List.pairwise_cons.mpr ⟨hx, hxs⟩⟩
      intro b hb
      rcases hb with _ | ⟨_, hb⟩
      · exact hle
      · exact le_trans hle (hx b hb)
    · rw [insertByCol, if_neg hle, List.pairwise_cons]
      refine ⟨?_, ih hxs⟩
      intro b hb
      rcases (insertByCol_perm l xs).mem_iff.mp hb with _ | ⟨_, hb⟩
      · omega
      · exact hx b hb

theorem sortByCol_sorted (ls : List Link) :
    (sortByCol ls).Pairwise fun a b => a.col ≤ b.col := by
  induction ls with
  | nil => simp [sortByCol]
  | cons a as ih => exact insertByCol_sorted a (sortByCol as) ih

/-! ## Row task lemmas -/

theorem rowTasksAux_length (row : Nat) :
    ∀ ls sc, (rowTasksAux row sc ls).length = ls.length := by
  intro ls
  induction ls with
  | nil => intro sc; rfl
  | cons l ls ih => intro sc; simp [rowTasksAux, ih]

theorem rowTasksAux_mem (row : Nat) :
    ∀ ls sc t, t ∈ rowTasksAux row sc ls →
      t.row = row ∧ sc ≤ t.startCol ∧ t.startCol < sc + ls.length ∧ t.link ∈ ls := by
  intro ls
  induction ls with
  | nil => intro sc t ht; cases ht
  | cons l ls ih =>
    intro sc t ht
    rcases ht with _ | ⟨_, ht⟩
    · exact ⟨rfl, le_rfl, by simp, List.mem_cons_self l ls⟩
    · obtain ⟨h1, h2, h3, h4⟩ := ih (sc + 1) t ht
      refine ⟨h1, by omega, ?_, List.mem_cons_of_mem l h4⟩
      simp only [List.length_cons]
      omega

theorem rowTasksAux_pairwise (row : Nat) :
    ∀ ls sc, (rowTasksAux row sc ls).Pairwise fun a b => a.startCol < b.startCol := by
  intro ls
  induction ls with
  | nil => intro sc; simp [rowTasksAux]
  | cons l ls ih =>
    intro sc
    rw [rowTasksAux, List.pairwise_cons]
    refine ⟨?_, ih (sc + 1)⟩
    intro t ht
    have := (rowTasksAux_mem row ls (sc + 1) t ht).2.1
    show sc < t.startCol
    omega

theorem rowTasksAux_get (row : Nat) :
    ∀ ls sc i (h : i < (rowTasksAux row sc ls).length)
      (h' : i < ls.length),
      (rowTasksAux row sc ls).get ⟨i, h⟩ = ⟨ls.get ⟨i, h'⟩, row, sc + i⟩ := by
  intro ls
  induction ls with
  | nil => intro sc i h h'; simp [rowTasksAux] at h
  | cons l ls ih =>
    intro sc i h h'
    cases i with
    | zero => rfl
    | succ i =>
      have hlen : i < (rowTasksAux row (sc + 1) ls).length := by
        rw [rowTasksAux_length]
        simpa using h'
      have hstep : (rowTasksAux row sc (l :: ls)).get ⟨i + 1, h⟩
          = (rowTasksAux row (sc + 1) ls).get ⟨i, hlen⟩ := rfl
      have htail : (l :: ls).get ⟨i + 1, h'⟩ = ls.get ⟨i, by simpa using h'⟩ := rfl
      rw [hstep, ih (sc + 1) i hlen (by simpa using h'), htail]
      simp only [Task.mk.injEq, true_and]
      omega

theorem rowTasksAux_keys (row : Nat) :
    ∀ ls sc, (rowTasksAux row sc ls).map (fun t => (t.row, t.link.col))
      = ls.map fun l => (row, l.col) := by
  intro ls
  induction ls with
  | nil => intro sc; rfl
  | cons l ls ih => intro sc; simp [rowTasksAux, ih]

theorem rowTasks_keys (ws : Worksheet) (r : Nat) (ls : List Link) :
    List.Perm ((rowTasks ws r ls).map fun t => (t.row, t.link.col))
      (ls.map fun l => (r, l.col)) := by
  rw [rowTasks, rowTasksAux_keys]
  exact (sortByCol_perm ls).map _

theorem rowTasks_mem_row (ws : Worksheet) (r : Nat) (ls : List Link) (t : Task)
    (ht : t ∈ rowTasks ws r ls) : t.row = r :=
  (rowTasksAux_mem r _ _ t ht).1

/-! ## Grouping lemmas -/

theorem groupCellKeys_cons (r : Nat) (ls : List Link) (rest : List (Nat × List Link)) :
    groupCellKeys ((r, ls) :: rest) = (ls.map fun l => (r, l.col)) ++ groupCellKeys rest := by
  simp [groupCellKeys]

theorem addLink_cellKeys (r : Nat) (l : Link) :
    ∀ g, List.Perm (groupCellKeys (addLink r l g)) ((r, l.col) :: groupCellKeys g) := by
  intro g
  induction g with
  | nil => exact List.Perm.refl _
  | cons gr rest ih =>
    obtain ⟨r', ls⟩ := gr
    by_cases h : r' = r
    · subst h
      rw [show addLink r' l ((r', ls) :: rest) = (r', ls ++ [l]) :: rest from by
        simp [addLink]]
      rw [groupCellKeys_cons, groupCellKeys_cons, List.map_append, List.append_assoc]
      exact List.perm_middle
    · rw [show addLink r l ((r', ls) :: rest) = (r', ls) :: addLink r l rest from by
        simp [addLink, h]]
      rw [groupCellKeys_cons, groupCellKeys_cons]
      exact (ih.append_left _).trans List.perm_middle

theorem foldl_groupStep_cellKeys :
    ∀ (cells : List Cell) (acc : List (Nat × List Link)),
      List.Perm (groupCellKeys (cells.foldl groupStep acc))
        (groupCellKeys acc ++ hyperKeys cells) := by
  intro cells
  induction cells with
  | nil =>
    intro acc
    rw [show hyperKeys [] = [] from rfl, List.append_nil]
    exact List.Perm.refl _
  | cons c cs ih =>
    intro acc
    rw [List.foldl_cons]
    cases hc : c.hyperlink with
    | none =>
      rw [show groupStep acc c = acc from by simp [groupStep, hc],
        show hyperKeys (c :: cs) = hyperKeys cs from by simp [hyperKeys, hc]]
      exact ih acc
    | some u =>
      rw [show groupStep acc c = addLink c.row ⟨u, c.col⟩ acc from by simp [groupStep, hc],
        show hyperKeys (c :: cs) = (c.row, c.col) :: hyperKeys cs from by
          simp [hyperKeys, hc]]
      refine (ih _).trans ?_
      refine (((addLink_cellKeys c.row ⟨u, c.col⟩ acc).append_right (hyperKeys cs)).trans ?_)
      exact List.perm_middle.symm

theorem groupHyperlinks_cellKeys (cells : List Cell) :
    List.Perm (groupCellKeys (groupHyperlinks cells)) (hyperKeys cells) := by
  have h := foldl_groupStep_cellKeys cells []
  rw [show groupCellKeys [] = [] from rfl, List.nil_append] at h
  exact h

theorem hyperKeys_sublist (cells : List Cell) :
    List.Sublist (hyperKeys cells) (cells.map fun c => (c.row, c.col)) := by
  induction cells with
  | nil => exact List.Sublist.refl _
  | cons c cs ih =>
    cases hc : c.hyperlink with
    | none =>
      rw [show hyperKeys (c :: cs) = hyperKeys cs from by simp [hyperKeys, hc],
        List.map_cons]
      exact ih.cons _
    | some u =>
      rw [show hyperKeys (c :: cs) = (c.row, c.col) :: hyperKeys cs from by
        simp [hyperKeys, hc], List.map_cons]
      exact ih.cons₂ _

theorem hyperKeys_nodup {ws : Worksheet} (h : ws.WF) : (hyperKeys ws.cells).Nodup :=
  (hyperKeys_sublist ws.cells).nodup h.2

theorem hyperKeys_mem :
    ∀ (cells : List Cell) (r c : Nat), (r, c) ∈ hyperKeys cells →
      ∃ cell ∈ cells, cell.row = r ∧ cell.col = c := by
  intro cells
  induction cells with
  | nil => intro r c h; cases h
  | cons cl cls ih =>
    intro r c h
    cases hc : cl.hyperlink with
    | none =>
      rw [show hyperKeys (cl :: cls) = hyperKeys cls from by simp [hyperKeys, hc]] at h
      obtain ⟨cell, hm, he⟩ := ih r c h
      exact ⟨cell, List.mem_cons_of_mem cl hm, he⟩
    | some u =>
      rw [show hyperKeys (cl :: cls) = (cl.row, cl.col) :: hyperKeys cls from by
        simp [hyperKeys, hc]] at h
      rcases h with _ | ⟨_, h⟩
      · exact ⟨cl, List.mem_cons_self cl cls, rfl, rfl⟩
      · obtain ⟨cell, hm, he⟩ := ih r c h
        exact ⟨cell, List.mem_cons_of_mem cl hm, he⟩

theorem addLink_keys (r : Nat) (l : Link) :
    ∀ g, (addLink r l g).map Prod.fst
      = if r ∈ g.map Prod.fst then g.map Prod.fst else g.map Prod.fst ++ [r] := by
  intro g
  induction g with
  | nil => simp [addLink]
  | cons gr rest ih =>
    obtain ⟨r', ls⟩ := gr
    by_cases h : r' = r
    · subst h
      rw [show addLink r' l ((r', ls) :: rest) = (r', ls ++ [l]) :: rest from by
        simp [addLink]]
      rw [if_pos (show r' ∈ List.map Prod.fst ((r', ls) :: rest) from
        List.mem_cons_self _ _)]
      rfl
    · have hstep : (addLink r l ((r', ls) :: rest)).map Prod.fst
          = r' :: (addLink r l rest).map Prod.fst := by simp [addLink, h]
      rw [hstep, ih]
      by_cases h2 : r ∈ rest.map Prod.fst
      · rw [if_pos h2, if_pos (by simp [h2])]
        rfl
      · rw [if_neg h2, if_neg ?_]
        · simp
        · intro hmem
          rcases List.mem_cons.mp hmem with hh | hh
          · exact h hh.symm
          · exact h2 hh

theorem foldl_groupStep_keys_nodup :
    ∀ (cells : List Cell) (acc : List (Nat × List Link)),
      (acc.map Prod.fst).Nodup → ((cells.foldl groupStep acc).map Prod.fst).Nodup := by
  intro cells
  induction cells with
  | nil => intro acc h; exact h
  | cons c cs ih =>
    intro acc h
    rw [List.foldl_cons]
    refine ih _ ?_
    cases hc : c.hyperlink with
    | none =>
      rw [show groupStep acc c = acc from by simp [groupStep, hc]]
      exact h
    | some u =>
      rw [show groupStep acc c = addLink c.row ⟨u, c.col⟩ acc from by simp [groupStep, hc],
        addLink_keys]
      by_cases hmem : c.row ∈ acc.map Prod.fst
      · rw [if_pos hmem]
        exact h
      · rw [if_neg hmem, List.nodup_append]
        refine ⟨h, List.nodup_singleton _, ?_⟩
        intro a ha hb
        rw [List.mem_singleton] at hb
        subst hb
        exact hmem ha

theorem groupHyperlinks_keys_nodup (cells : List Cell) :
    ((groupHyperlinks cells).map Prod.fst).Nodup :=
  foldl_groupStep_keys_nodup cells [] (by simp)

theorem flatten_map_perm {α β : Type} (L : List α) (f g : α → List β)
    (h : ∀ a ∈ L, List.Perm (f a) (g a)) :
    List.Perm ((L.map f).flatten) ((L.map g).flatten) := by
  induction L with
  | nil => exact List.Perm.refl _
  | cons a as ih =>
    simp only [List.map_cons, List.flatten_cons]
    exact (h a (List.mem_cons_self a as)).append
      (ih fun b hb => h b (List.mem_cons_of_mem a hb))

theorem dispatch_keys (ws : Worksheet) :
    List.Perm ((dispatch ws).map fun t => (t.row, t.link.col)) (hyperKeys ws.cells) := by
  rw [dispatch, List.map_flatten, List.map_map]
  have h1 := flatten_map_perm (groupHyperlinks ws.cells)
    (fun g => (rowTasks ws g.1 g.2).map fun t => (t.row, t.link.col))
    (fun g => g.2.map fun l => (g.1, l.col))
    (fun g _ => rowTasks_keys ws g.1 g.2)
  exact h1.trans (groupHyperlinks_cellKeys ws.cells)

theorem dispatch_keys_nodup {ws : Worksheet} (h : ws.WF) :
    ((dispatch ws).map fun t => (t.row, t.link.col)).Nodup :=
  (dispatch_keys ws).nodup_iff.mpr (hyperKeys_nodup h)

theorem dispatch_pairwise_ne {ws : Worksheet} (h : ws.WF) :
    (dispatch ws).Pairwise fun t t' => (t.row, t.link.col) ≠ (t'.row, t'.link.col) :=
  List.pairwise_map.mp (dispatch_keys_nodup h)

theorem dispatch_pairwise_order (ws : Worksheet) :
    (dispatch ws).Pairwise fun t t' => t.row ≠ t'.row ∨ t.startCol < t'.startCol := by
  rw [dispatch, List.pairwise_flatten]
  constructor
  · intro l hl
    rw [List.mem_map] at hl
    obtain ⟨g, -, rfl⟩ := hl
    exact (rowTasksAux_pairwise g.1 (sortByCol g.2)
      (findInsertStartCol ws g.1 g.2.length)).imp fun hab => Or.inr hab
  · have hpw : (groupHyperlinks ws.cells).Pairwise fun g g' => g.1 ≠ g'.1 :=
      List.pairwise_map.mp (groupHyperlinks_keys_nodup ws.cells)
    rw [List.pairwise_map]
    refine hpw.imp_of_mem ?_
    intro g g' _ _ hne a ha b hb
    left
    rw [rowTasks_mem_row ws g.1 g.2 a ha, rowTasks_mem_row ws g'.1 g'.2 b hb]
    exact hne

/-! ## Fold bounds -/

theorem mem_le_foldr_max (f : Cell → Nat) :
    ∀ (l : List Cell) (c : Cell), c ∈ l → f c ≤ l.foldr (fun c m => max (f c) m) 1 := by
  intro l
  induction l with
  | nil => intro c hc; cases hc
  | cons x xs ih =>
    intro c hc
    rcases hc with _ | ⟨_, hc⟩
    · exact le_max_left _ _
    · exact le_trans (ih c hc) (le_max_right _ _)

theorem cell_row_le_maxRow {ws : Worksheet} {c : Cell} (hc : c ∈ ws.cells) :
    c.row ≤ ws.maxRow :=
  mem_le_foldr_max (fun c => c.row) ws.cells c hc

theorem cell_col_le_maxColumn {ws : Worksheet} {c : Cell} (hc : c ∈ ws.cells) :
    c.col ≤ ws.maxColumn :=
  mem_le_foldr_max (fun c => c.col) ws.cells c hc

theorem foldl_hcol_mono :
    ∀ (l : List Cell) (acc : Nat),
      acc ≤ l.foldl (fun m c => if c.hyperlink.isSome then max m c.col else m) acc := by
  intro l
  induction l with
  | nil => intro acc; exact le_rfl
  | cons x xs ih =>
    intro acc
    rw [List.foldl_cons]
    refine le_trans ?_ (ih _)
    cases hx : x.hyperlink.isSome
    · simp [hx]
    · simp only [hx, if_true]
      exact le_max_left _ _

theorem mem_le_foldl_hcol :
    ∀ (l : List Cell) (acc : Nat) (c : Cell), c ∈ l → c.hyperlink.isSome = true →
      c.col ≤ l.foldl (fun m c => if c.hyperlink.isSome then max m c.col else m) acc := by
  intro l
  induction l with
  | nil => intro acc c hc; cases hc
  | cons x xs ih =>
    intro acc c hc hsome
    rw [List.foldl_cons]
    rcases hc with _ | ⟨_, hc⟩
    · refine le_trans ?_ (foldl_hcol_mono xs _)
      simp only [hsome, if_true]
      exact le_max_right _ _
    · exact ih _ c hc hsome

theorem hyperlinkCols_le_max (ws : Worksheet) (row : Nat) :
    ∀ x ∈ hyperlinkCols ws row, x ≤ maxHyperlinkCol ws row := by
  intro x hx
  rw [hyperlinkCols, List.mem_map] at hx
  obtain ⟨c, hc, rfl⟩ := hx
  rw [List.mem_filter] at hc
  obtain ⟨hmem, hpred⟩ := hc
  have hprop : c.row = row ∧ c.hyperlink.isSome := by
    simpa using hpred
  refine mem_le_foldl_hcol _ 0 c ?_ hprop.2
  rw [List.mem_filter]
  refine ⟨hmem, ?_⟩
  simp [hprop.1]

/-! ## Extension extraction lemmas -/

theorem revExt_no_dot : ∀ r : Str, '.' ∉ r → revExt r = none := by
  intro r
  induction r with
  | nil => intro _; rfl
  | cons c cs ih =>
    intro h
    have hc : c ≠ '.' := fun hh => h (hh ▸ List.mem_cons_self c cs)
    have hcs : '.' ∉ cs := fun hh => h (List.mem_cons_of_mem c hh)
    by_cases hsl : c = '/'
    · rw [revExt, if_pos hsl]
    · rw [revExt, if_neg hsl, if_neg hc, ih hcs]
      rfl

theorem nonDotBeforeSlash_of_exists :
    ∀ (b r : Str), '/' ∉ b → (∃ c ∈ b, c ≠ '.') → nonDotBeforeSlash (b ++ r) = true := by
  intro b
  induction b with
  | nil =>
    intro r _ hex
    obtain ⟨c, hc, -⟩ := hex
    cases hc
  | cons x xs ih =>
    intro r hsl hex
    have hx : x ≠ '/' := fun hh => hsl (hh ▸ List.mem_cons_self x xs)
    by_cases hdot : x = '.'
    · subst hdot
      have hex' : ∃ c ∈ xs, c ≠ '.' := by
        obtain ⟨c, hc, hne⟩ := hex
        rcases hc with _ | ⟨_, hc⟩
        · exact absurd rfl hne
        · exact ⟨c, hc, hne⟩
      rw [List.cons_append, nonDotBeforeSlash, if_neg (by decide), if_pos rfl]
      exact ih r (fun hh => hsl (List.mem_cons_of_mem _ hh)) hex'
    · rw [List.cons_append, nonDotBeforeSlash, if_neg hx, if_neg hdot]

theorem revExt_shape :
    ∀ (s rest : Str), (∀ c ∈ s, c ≠ '.' ∧ c ≠ '/') →
      revExt (s ++ '.' :: rest)
        = if nonDotBeforeSlash rest then some s else none := by
  intro s
  induction s with
  | nil =>
    intro rest _
    rw [List.nil_append, revExt, if_neg (by decide), if_pos rfl]
  | cons x xs ih =>
    intro rest h
    have hx := h x (List.mem_cons_self x xs)
    rw [List.cons_append, revExt, if_neg hx.2, if_neg hx.1,
      ih rest fun c hc => h c (List.mem_cons_of_mem x hc)]
    by_cases hnd : nonDotBeforeSlash rest
    · rw [if_pos hnd, if_pos hnd]
      rfl
    · rw [if_neg hnd, if_neg hnd]
      rfl

/-- `_get_file_extension` on a path whose basename decomposes as
`b ++ "." ++ s` with `s` free of dots and slashes and `b` slash-free
containing a non-dot character: the result is `s` lowercased. -/
theorem getFileExtension_decomp (u t b s : Str)
    (hpath : urlPath u = t ++ '/' :: (b ++ '.' :: s))
    (hs : ∀ c ∈ s, c ≠ '.' ∧ c ≠ '/')
    (hb : '/' ∉ b) (hbd : ∃ c ∈ b, c ≠ '.') :
    getFileExtension u = s.map Char.toLower := by
  have hrev : (urlPath u).reverse = s.reverse ++ '.' :: (b.reverse ++ '/' :: t.reverse) := by
    rw [hpath]
    simp
  have hs' : ∀ c ∈ s.reverse, c ≠ '.' ∧ c ≠ '/' := fun c hc =>
    hs c (List.mem_reverse.mp hc)
  have hb' : '/' ∉ b.reverse := fun hh => hb (List.mem_reverse.mp hh)
  have hbd' : ∃ c ∈ b.reverse, c ≠ '.' := by
    obtain ⟨c, hc, hne⟩ := hbd
    exact ⟨c, List.mem_reverse.mpr hc, hne⟩
  have hnd : nonDotBeforeSlash (b.reverse ++ '/' :: t.reverse) = true :=
    nonDotBeforeSlash_of_exists b.reverse ('/' :: t.reverse) hb' hbd'
  rw [getFileExtension, hrev, revExt_shape s.reverse _ hs', if_pos hnd]
  show (s.reverse.reverse).map Char.toLower = s.map Char.toLower
  rw [List.reverse_reverse]

/-- `_get_file_extension` on a path with no dot at all: no extension. -/
theorem getFileExtension_no_dot (u : Str) (h : '.' ∉ urlPath u) :
    getFileExtension u = [] := by
  have h' : '.' ∉ (urlPath u).reverse := fun hh => h (List.mem_reverse.mp hh)
  rw [getFileExtension, revExt_no_dot _ h']

/-! ## Final shared lemmas -/

theorem insertsOf_mem_effect :
    ∀ (effs : List Effect) (pl : Placement), pl ∈ insertsOf effs →
      Effect.insertImage pl.path pl.row pl.col pl.width pl.height ∈ effs := by
  intro effs
  induction effs with
  | nil => intro pl h; cases h
  | cons e rest ih =>
    intro pl h
    cases e with
    | insertImage p r c w hh =>
      rcases h with _ | ⟨_, h⟩
      · exact List.mem_cons_self _ _
      · exact List.mem_cons_of_mem _ (ih pl h)
    | mkdirTemp => exact List.mem_cons_of_mem _ (ih pl h)
    | dependencyCheck => exact List.mem_cons_of_mem _ (ih pl h)
    | netGet u => exact List.mem_cons_of_mem _ (ih pl h)
    | scratchWrite p => exact List.mem_cons_of_mem _ (ih pl h)
    | log ev => exact List.mem_cons_of_mem _ (ih pl h)

theorem insertCells_flatten :
    ∀ L : List (List Effect), insertCells L.flatten = (L.map insertCells).flatten := by
  intro L
  induction L with
  | nil => rfl
  | cons l ls ih =>
    rw [List.flatten_cons, insertCells_append, ih, List.map_cons, List.flatten_cons]

theorem insertsOf_flatten :
    ∀ L : List (List Effect), insertsOf L.flatten = (L.map insertsOf).flatten := by
  intro L
  induction L with
  | nil => rfl
  | cons l ls ih =>
    rw [List.flatten_cons, insertsOf_append, ih, List.map_cons, List.flatten_cons]

theorem psl_insertCells_mem (env : LinkEnv) (td : Str) (link : Link) (row sc : Nat) :
    ∀ rc ∈ insertCells (processSingleLink env td link row sc),
      rc.1 = row ∧ sc ≤ rc.2 := by
  intro rc hrc
  obtain ⟨m, hm⟩ := psl_insertCells env td link row sc
  rw [hm, List.mem_map] at hrc
  obtain ⟨p, -, rfl⟩ := hrc
  exact ⟨rfl, by omega⟩

theorem taskEffects_eq (env : RunEnv) (td : Str) (t : Task) :
    taskEffects env td t
      = processSingleLink (env.linkEnv t.row t.link.col) td t.link t.row t.startCol := rfl

/-! ## Claim theorems -/

/-- C9 (counterexample): for the URL `http://host/.pdf`, whose path
basename consists of a leading dot only, the claimed rule ("suffix after
the last `.` of the path") yields `pdf`, but `_get_file_extension`
(via `os.path.splitext`) yields no extension. -/
theorem c9_counterexample :
    getFileExtension "http://host/.pdf".data = []
      ∧ specExtension "http://host/.pdf".data = "pdf".data
      ∧ ("pdf".data : Str) ≠ [] := by
  refine ⟨by decide, by decide, by decide⟩

/-- C9 (amended): the classification extension is the lowercased suffix
after the last `.` of the path's final segment, provided that segment
contains a non-dot character before that dot (`os.path.splitext`
semantics); a path without any `.` yields no extension.  Query and
fragment are excluded because `urlPath` strips them. -/
theorem c9_extension_semantics :
    (∀ u t b s : Str, urlPath u = t ++ '/' :: (b ++ '.' :: s) →
      (∀ c ∈ s, c ≠ '.' ∧ c ≠ '/') → '/' ∉ b → (∃ c ∈ b, c ≠ '.') →
      getFileExtension u = s.map Char.toLower) ∧
    (∀ u : Str, '.' ∉ urlPath u → getFileExtension u = []) :=
  ⟨getFileExtension_decomp, getFileExtension_no_dot⟩

/-- Witness for C9: a concrete uppercase-extension URL with query and
fragment, and a concrete extension-free URL. -/
theorem c9_witness :
    getFileExtension "http://host/dir/photo.JPG".data = "jpg".data
      ∧ getFileExtension "http://host/noext".data = [] := by
  constructor
  · have h := c9_extension_semantics.1 "http://host/dir/photo.JPG".data
      "/dir".data "photo".data "JPG".data (by decide) (by decide) (by decide) (by decide)
    exact h.trans (by decide)
  · exact c9_extension_semantics.2 "http://host/noext".data (by decide)

/-- C3: a successfully fetched `pdf` link rasterizing to `k` pages embeds
exactly `k` images in the link's row, page `j` (1-indexed, `j = p + 1`)
anchored at column `startCol + j - 1`, i.e. columns
`startCol … startCol + k - 1`, each hard-sized 180×120. -/
theorem c3_pdf_pages (env : LinkEnv) (td : Str) (link : Link) (row sc k : Nat)
    (hf : env.fetchOk = true) (hp : getFileExtension link.url = "pdf".data)
    (hk : env.pdfPages = some k)
    (hok : ∀ i, 1 ≤ i → i ≤ k → env.embedFails i = false) :
    insertsOf (processSingleLink env td link row sc)
      = ((List.range k).map fun p =>
          ⟨pageFile td row link.col (1 + p), row, sc + p, 180, 120⟩)
    ∧ (insertsOf (processSingleLink env td link row sc)).length = k := by
  have hloop := pdfLoop_success env td row link.col sc k 1
    fun i h1 h2 => hok i h1 (by omega)
  have hbody := workerBody_pdf_some env td link row sc k hf hp hk
  rw [hloop] at hbody
  have hpsl := psl_of_none hbody
  have hins : insertsOf (processSingleLink env td link row sc)
      = insertsOf (((List.range k).map fun p =>
          pageEffects td row link.col sc (1 + p)).flatten) := by
    rw [hpsl]
    rfl
  rw [hins, insertsOf_pageFlatten]
  have hfun : (fun p => (⟨pageFile td row link.col (1 + p), row,
        sc + (1 + p) - 1, 180, 120⟩ : Placement))
      = fun p => ⟨pageFile td row link.col (1 + p), row, sc + p, 180, 120⟩ := by
    funext p
    simp only [Placement.mk.injEq, true_and, and_true]
    omega
  rw [hfun]
  exact ⟨rfl, by simp⟩

/-- Witness for C3: a two-page PDF link embeds exactly two images. -/
theorem c3_witness :
    (insertsOf (processSingleLink ⟨true, some 2, fun _ => false⟩ "t".data
      ⟨"http://h/a.pdf".data, 1⟩ 1 5)).length = 2 :=
  (c3_pdf_pages ⟨true, some 2, fun _ => false⟩ "t".data ⟨"http://h/a.pdf".data, 1⟩
    1 5 2 rfl (by decide) rfl fun _ _ _ => rfl).2

/-- C4: every image any worker embeds is hard-sized 180×120 (aspect
ratio not preserved), and a successfully fetched `jpg`/`jpeg`/`png` link
embeds exactly one image anchored at (row, startCol). -/
theorem c4_raster_image :
    (∀ (env : LinkEnv) (td : Str) (link : Link) (row sc : Nat),
      ∀ pl ∈ insertsOf (processSingleLink env td link row sc),
        pl.width = 180 ∧ pl.height = 120) ∧
    (∀ (env : LinkEnv) (td : Str) (link : Link) (row sc : Nat),
      env.fetchOk = true → getFileExtension link.url ∈ imageExts →
      env.embedFails 1 = false →
      insertsOf (processSingleLink env td link row sc)
        = [⟨scratchFile td row link.col (getFileExtension link.url), row, sc, 180, 120⟩]) := by
  constructor
  · intro env td link row sc pl hpl
    have heff := insertsOf_mem_effect _ pl hpl
    have hok := psl_mem env td link row sc _ heff
    exact ⟨hok.2.2.1, hok.2.2.2⟩
  · intro env td link row sc hf hi hf1
    rw [psl_of_none (workerBody_image_ok env td link row sc hf hi hf1)]
    rfl

/-- Witness for C4: a concrete `jpg` link embeds one 180×120 image at its
reserved column. -/
theorem c4_witness :
    insertsOf (processSingleLink ⟨true, none, fun _ => false⟩ "t".data
      ⟨"http://h/a.jpg".data, 1⟩ 1 4)
      = [⟨scratchFile "t".data 1 1 "jpg".data, 1, 4, 180, 120⟩] := by
  have h := c4_raster_image.2 ⟨true, none, fun _ => false⟩ "t".data
    ⟨"http://h/a.jpg".data, 1⟩ 1 4 rfl (by decide) rfl
  exact h.trans (by decide)

/-- C6 (counterexample): a link with an extension-free URL whose fetch
fails emits a download-failure log and zero `UnrecognizedType` events —
the claim asserts exactly one `UnrecognizedType` event for every such
link, without requiring the fetch to succeed. -/
theorem c6_counterexample :
    processSingleLink ⟨false, none, fun _ => false⟩ "t".data
        ⟨"http://h/noext".data, 1⟩ 1 2
      = [Effect.netGet "http://h/noext".data,
         Effect.log (LogEvent.downloadFailed "http://h/noext".data 1 1)]
    ∧ (logsOf (processSingleLink ⟨false, none, fun _ => false⟩ "t".data
        ⟨"http://h/noext".data, 1⟩ 1 2)).countP
        (fun ev => match ev with
          | LogEvent.unrecognizedType _ _ _ => true
          | _ => false) = 0 := by
  refine ⟨by decide, by decide⟩

/-- C6 (amended): for a link whose fetch succeeds — no extension gives
zero embedded images and exactly one `UnrecognizedType` event; a video
extension gives zero images and exactly one `SkippedVideo` event; any
other extension outside pdf/jpg/jpeg/png gives zero images and exactly
one `UnsupportedType` event.  Each case ends the link's processing. -/
theorem c6_classification :
    (∀ (env : LinkEnv) (td : Str) (link : Link) (row sc : Nat),
      env.fetchOk = true → getFileExtension link.url = [] →
      insertsOf (processSingleLink env td link row sc) = []
        ∧ logsOf (processSingleLink env td link row sc)
          = [LogEvent.unrecognizedType link.url row link.col]) ∧
    (∀ (env : LinkEnv) (td : Str) (link : Link) (row sc : Nat),
      env.fetchOk = true → getFileExtension link.url ∈ videoExts →
      insertsOf (processSingleLink env td link row sc) = []
        ∧ logsOf (processSingleLink env td link row sc)
          = [LogEvent.skippedVideo link.url row link.col]) ∧
    (∀ (env : LinkEnv) (td : Str) (link : Link) (row sc : Nat),
      env.fetchOk = true → getFileExtension link.url ≠ [] →
      getFileExtension link.url ∉ videoExts →
      getFileExtension link.url ≠ "pdf".data →
      getFileExtension link.url ∉ imageExts →
      insertsOf (processSingleLink env td link row sc) = []
        ∧ logsOf (processSingleLink env td link row sc)
          = [LogEvent.unsupportedType (getFileExtension link.url) row link.col]) := by
  refine ⟨?_, ?_, ?_⟩
  · intro env td link row sc hf he
    rw [psl_of_none (workerBody_noExt env td link row sc hf he)]
    exact ⟨rfl, rfl⟩
  · intro env td link row sc hf hv
    rw [psl_of_none (workerBody_video env td link row sc hf hv)]
    exact ⟨rfl, rfl⟩
  · intro env td link row sc hf hne hnv hnp hni
    rw [psl_of_none (workerBody_other env td link row sc hf hne hnv hnp hni)]
    exact ⟨rfl, rfl⟩

/-- Witness for C6: concrete extension-free, `mp4` and `docx` links. -/
theorem c6_witness :
    logsOf (processSingleLink ⟨true, none, fun _ => false⟩ "t".data
        ⟨"http://h/noext".data, 1⟩ 1 2)
      = [LogEvent.unrecognizedType "http://h/noext".data 1 1]
    ∧ logsOf (processSingleLink ⟨true, none, fun _ => false⟩ "t".data
        ⟨"http://h/v.mp4".data, 2⟩ 1 3)
      = [LogEvent.skippedVideo "http://h/v.mp4".data 1 2]
    ∧ logsOf (processSingleLink ⟨true, none, fun _ => false⟩ "t".data
        ⟨"http://h/a.docx".data, 3⟩ 1 4)
      = [LogEvent.unsupportedType "docx".data 1 3] := by
  refine ⟨?_, ?_, ?_⟩
  · exact (c6_classification.1 ⟨true, none, fun _ => false⟩ "t".data
      ⟨"http://h/noext".data, 1⟩ 1 2 rfl (by decide)).2
  · exact (c6_classification.2.1 ⟨true, none, fun _ => false⟩ "t".data
      ⟨"http://h/v.mp4".data, 2⟩ 1 3 rfl (by decide)).2
  · have h := (c6_classification.2.2 ⟨true, none, fun _ => false⟩ "t".data
      ⟨"http://h/a.docx".data, 3⟩ 1 4 rfl (by decide) (by decide) (by decide)
      (by decide)).2
    exact h.trans (by decide)

/-- C1 (counterexample): in a row with hyperlinks at columns 1 and 5
(n = 2 links), the first column index from which a contiguous block of 2
columns avoids the hyperlink columns is 2, but `_find_insert_start_col`
returns 6 — the allocator does not return the *first* such index. -/
theorem c1_counterexample :
    specFirstFit ⟨[⟨1, 1, some "http://h/a.jpg".data⟩,
      ⟨1, 5, some "http://h/b.jpg".data⟩]⟩ 1 2 = 2
    ∧ findInsertStartCol ⟨[⟨1, 1, some "http://h/a.jpg".data⟩,
      ⟨1, 5, some "http://h/b.jpg".data⟩]⟩ 1 2 = 6
    ∧ (2 : Nat) ≠ 6 := by
  refine ⟨by decide, by decide, by decide⟩

/-- C1 (amended): for a row with `n ≥ 1` links the allocator returns
`maxHyperlinkColumn + 1`; the block of `n` columns from there avoids
every hyperlink column of the row (though it need not be the first such
index); exactly `n` contiguous slots are handed out, and the i-th link
in ascending column order is reserved `startColumn + i`. -/
theorem c1_allocator (ws : Worksheet) (row : Nat) (links : List Link) (n : Nat)
    (hn : n = links.length) (hpos : 1 ≤ n) :
    findInsertStartCol ws row n = maxHyperlinkCol ws row + 1 ∧
    (∀ j, j < n → findInsertStartCol ws row n + j ∉ hyperlinkCols ws row) ∧
    (rowTasks ws row links).length = n ∧
    (sortByCol links).Pairwise (fun a b => a.col ≤ b.col) ∧
    (∀ i (h1 : i < (rowTasks ws row links).length) (h2 : i < (sortByCol links).length),
      (rowTasks ws row links).get ⟨i, h1⟩
        = ⟨(sortByCol links).get ⟨i, h2⟩, row, findInsertStartCol ws row n + i⟩) := by
  subst hn
  have hstart : findInsertStartCol ws row links.length = maxHyperlinkCol ws row + 1 := by
    rw [findInsertStartCol, if_pos (by omega)]
  refine ⟨hstart, ?_, ?_, sortByCol_sorted links, ?_⟩
  · intro j hj hmem
    have hle := hyperlinkCols_le_max ws row _ hmem
    omega
  · rw [rowTasks, rowTasksAux_length]
    exact (sortByCol_perm links).length_eq
  · intro i h1 h2
    exact rowTasksAux_get row (sortByCol links)
      (findInsertStartCol ws row links.length) i h1 h2

/-- Witness for C1: a two-link row (columns 5 and 1, given unsorted);
the first sorted link is reserved column 6 = maxHyperlinkColumn + 1. -/
theorem c1_witness :
    (rowTasks ⟨[⟨1, 1, some "http://h/a.jpg".data⟩, ⟨1, 5, some "http://h/b.jpg".data⟩]⟩
      1 [⟨"http://h/b.jpg".data, 5⟩, ⟨"http://h/a.jpg".data, 1⟩]).get ⟨0, by decide⟩
      = ⟨⟨"http://h/a.jpg".data, 1⟩, 1, 6⟩ := by
  have h := (c1_allocator ⟨[⟨1, 1, some "http://h/a.jpg".data⟩,
      ⟨1, 5, some "http://h/b.jpg".data⟩]⟩ 1
      [⟨"http://h/b.jpg".data, 5⟩, ⟨"http://h/a.jpg".data, 1⟩] 2 rfl (by decide)).2.2.2.2
      0 (by decide) (by decide)
  exact h.trans (by decide)

/-- C7: every run performs the dependency check exactly once, right
after creating the scratch directory and before any other effect; when
a required Poppler binary is missing the run aborts fatally
(`DependencyMissing`) with zero network calls and zero embedded
images. -/
theorem c7_dependency_gate (env : RunEnv) (td : Str) (ws : Worksheet) :
    (∃ rest, (processExcelHyperlinks env td ws).1
        = [Effect.mkdirTemp, Effect.dependencyCheck] ++ rest
      ∧ Effect.dependencyCheck ∉ rest ∧ Effect.mkdirTemp ∉ rest) ∧
    (validatePoppler env.popplerBin = false →
      (processExcelHyperlinks env td ws).2 = RunResult.fatal RunError.dependencyMissing
      ∧ netGets (processExcelHyperlinks env td ws).1 = []
      ∧ insertsOf (processExcelHyperlinks env td ws).1 = []) := by
  cases hval : validatePoppler env.popplerBin
  · have hrun : processExcelHyperlinks env td ws
        = ([Effect.mkdirTemp, Effect.dependencyCheck],
          RunResult.fatal RunError.dependencyMissing) := by
      simp [processExcelHyperlinks, hval]
    constructor
    · refine ⟨[], ?_, by decide, by decide⟩
      rw [hrun]
      rfl
    · intro _
      rw [hrun]
      exact ⟨rfl, rfl, rfl⟩
  · have hrun1 : (processExcelHyperlinks env td ws).1
        = [Effect.mkdirTemp, Effect.dependencyCheck]
          ++ ((dispatch ws).map (taskEffects env td)).flatten := by
      simp [processExcelHyperlinks, hval]
    constructor
    · refine ⟨((dispatch ws).map (taskEffects env td)).flatten, hrun1, ?_, ?_⟩
      · intro hmem
        rw [List.mem_flatten] at hmem
        obtain ⟨l, hl, hel⟩ := hmem
        rw [List.mem_map] at hl
        obtain ⟨t, -, rfl⟩ := hl
        exact psl_mem _ _ _ _ _ _ hel
      · intro hmem
        rw [List.mem_flatten] at hmem
        obtain ⟨l, hl, hel⟩ := hmem
        rw [List.mem_map] at hl
        obtain ⟨t, -, rfl⟩ := hl
        exact psl_mem _ _ _ _ _ _ hel
    · intro hcontra
      cases hcontra

/-- Witness for C7: an empty Poppler directory listing aborts the run
fatally. -/
theorem c7_witness :
    (processExcelHyperlinks ⟨[], fun _ _ => ⟨true, none, fun _ => false⟩⟩ "t".data
      ⟨[⟨1, 1, some "http://h/a.jpg".data⟩]⟩).2
      = RunResult.fatal RunError.dependencyMissing :=
  ((c7_dependency_gate ⟨[], fun _ _ => ⟨true, none, fun _ => false⟩⟩ "t".data
    ⟨[⟨1, 1, some "http://h/a.jpg".data⟩]⟩).2 (by decide)).1

/-- C5 (counterexample): a two-page PDF whose second page raises during
embedding fails (one `processingError` log) yet contributes one embedded
image, not zero — images inserted before the exception are not rolled
back. -/
theorem c5_counterexample :
    (insertsOf (processSingleLink ⟨true, some 2, fun j => j == 2⟩ "t".data
      ⟨"http://h/a.pdf".data, 1⟩ 1 3)).length = 1
    ∧ logsOf (processSingleLink ⟨true, some 2, fun j => j == 2⟩ "t".data
      ⟨"http://h/a.pdf".data, 1⟩ 1 3)
      = [LogEvent.processingError "http://h/a.pdf".data 1 1]
    ∧ (1 : Nat) ≠ 0 := by
  refine ⟨by decide, by decide, by decide⟩

/-- C5 (amended): every exception escaping the worker body is caught at
the worker boundary and converted into exactly one error log carrying
the link's url/row/column (the body itself emits no error logs), the
worker never propagates an exception, and every dispatched link's
effects appear in the run regardless of other links' failures.  Images
embedded before a mid-loop exception remain. -/
theorem c5_failure_isolation :
    (∀ (env : LinkEnv) (td : Str) (link : Link) (row sc : Nat)
      (effs : List Effect) (exc : Option PyExc),
      workerBody env td link row sc = (effs, exc) →
      processSingleLink env td link row sc
        = effs ++ (match exc with
            | none => []
            | some PyExc.requestException =>
                [Effect.log (LogEvent.downloadFailed link.url row link.col)]
            | some PyExc.otherException =>
                [Effect.log (LogEvent.processingError link.url row link.col)])
      ∧ (∀ ev ∈ logsOf effs, isErrorLog ev = false)) ∧
    (∀ (env : RunEnv) (td : Str) (ws : Worksheet) (t : Task),
      t ∈ dispatch ws → validatePoppler env.popplerBin = true →
      ∃ pre post, (processExcelHyperlinks env td ws).1
        = pre ++ taskEffects env td t ++ post) := by
  constructor
  · intro env td link row sc effs exc h
    constructor
    · cases exc with
      | none =>
        rw [psl_of_none h]
        simp
      | some e =>
        cases e with
        | requestException =>
          rw [psl_of_req h]
        | otherException =>
          rw [psl_of_other h]
    · have hlogs := workerBody_logs env td link row sc
      rw [h] at hlogs
      exact fun ev hev => hlogs ev hev
  · intro env td ws t ht hval
    have hrun1 : (processExcelHyperlinks env td ws).1
        = [Effect.mkdirTemp, Effect.dependencyCheck]
          ++ ((dispatch ws).map (taskEffects env td)).flatten := by
      simp [processExcelHyperlinks, hval]
    obtain ⟨s1, s2, hsplit⟩ := List.append_of_mem ht
    refine ⟨[Effect.mkdirTemp, Effect.dependencyCheck]
      ++ (s1.map (taskEffects env td)).flatten,
      (s2.map (taskEffects env td)).flatten, ?_⟩
    rw [hrun1, hsplit]
    simp [List.flatten_append, List.append_assoc]

/-- Witness for C5: a failing fetch yields the body effects plus exactly
the download-failure log, and a dispatched link's effects appear in a
concrete run. -/
theorem c5_witness :
    processSingleLink ⟨false, none, fun _ => false⟩ "t".data ⟨"http://h/a.jpg".data, 1⟩ 1 2
      = [Effect.netGet "http://h/a.jpg".data]
        ++ [Effect.log (LogEvent.downloadFailed "http://h/a.jpg".data 1 1)]
    ∧ ∃ pre post,
        (processExcelHyperlinks ⟨requiredPopplerFiles, fun _ _ => ⟨true, none, fun _ => false⟩⟩
          "t".data ⟨[⟨1, 1, some "http://h/a.jpg".data⟩]⟩).1
          = pre ++ taskEffects ⟨requiredPopplerFiles, fun _ _ => ⟨true, none, fun _ => false⟩⟩
              "t".data ⟨⟨"http://h/a.jpg".data, 1⟩, 1, 2⟩ ++ post := by
  constructor
  · have h := (c5_failure_isolation.1 ⟨false, none, fun _ => false⟩ "t".data
      ⟨"http://h/a.jpg".data, 1⟩ 1 2 [Effect.netGet "http://h/a.jpg".data]
      (some PyExc.requestException) (by decide)).1
    exact h.trans (by decide)
  · exact c5_failure_isolation.2 ⟨requiredPopplerFiles, fun _ _ => ⟨true, none, fun _ => false⟩⟩
      "t".data ⟨[⟨1, 1, some "http://h/a.jpg".data⟩]⟩ ⟨⟨"http://h/a.jpg".data, 1⟩, 1, 2⟩
      (by decide) (by decide)

/-- C10: scratch-file paths of distinct links never collide: the written
path determines the link's (row, originating column) key, which is
unique per hyperlinked cell, and PDF page files carry the page number
after a non-digit separator. -/
theorem c10_scratch_disjoint (env : RunEnv) (td : Str) (ws : Worksheet) (hWF : ws.WF) :
    ((dispatch ws).map fun t => scratchPaths (taskEffects env td t)).Pairwise
      List.Disjoint := by
  rw [List.pairwise_map]
  refine (dispatch_pairwise_ne hWF).imp_of_mem ?_
  intro t t' _ _ hne p hp hp'
  obtain ⟨c, tail, hc, hshape⟩ :=
    psl_scratchPaths (env.linkEnv t.row t.link.col) td t.link t.row t.startCol p hp
  obtain ⟨c', tail', hc', hshape'⟩ :=
    psl_scratchPaths (env.linkEnv t'.row t'.link.col) td t'.link t'.row t'.startCol p hp'
  have hkey := scratch_path_key hc hc' (hshape.symm.trans hshape')
  exact hne (by rw [hkey.1, hkey.2])

/-- Witness for C10: a concrete run with a two-page PDF link and a JPG
link in one row writes pairwise-disjoint scratch paths. -/
theorem c10_witness :
    ((dispatch ⟨[⟨1, 1, some "http://h/a.pdf".data⟩, ⟨1, 2, some "http://h/b.jpg".data⟩]⟩).map
      fun t => scratchPaths (taskEffects ⟨requiredPopplerFiles,
        fun _ c => ⟨true, if c = 1 then some 2 else none, fun _ => false⟩⟩ "t".data t)).Pairwise
      List.Disjoint :=
  c10_scratch_disjoint ⟨requiredPopplerFiles,
      fun _ c => ⟨true, if c = 1 then some 2 else none, fun _ => false⟩⟩ "t".data
    ⟨[⟨1, 1, some "http://h/a.pdf".data⟩, ⟨1, 2, some "http://h/b.jpg".data⟩]⟩ (by decide)

/-- C2 (counterexample): a well-formed sheet with a two-page PDF link at
column 1 followed by a JPG link at column 2 in the same row produces two
insertions into the same cell (1, 4): PDF page 2 lands on the JPG's
reserved slot. -/
theorem c2_counterexample :
    Worksheet.WF ⟨[⟨1, 1, some "http://h/a.pdf".data⟩, ⟨1, 2, some "http://h/b.jpg".data⟩]⟩
    ∧ insertCells (processExcelHyperlinks ⟨requiredPopplerFiles,
        fun _ c => ⟨true, if c = 1 then some 2 else none, fun _ => false⟩⟩ "t".data
        ⟨[⟨1, 1, some "http://h/a.pdf".data⟩, ⟨1, 2, some "http://h/b.jpg".data⟩]⟩).1
      = [(1, 3), (1, 4), (1, 4)]
    ∧ ¬ ([((1 : Nat), (3 : Nat)), (1, 4), (1, 4)] : List (Nat × Nat)).Nodup := by
  refine ⟨by decide, by decide, by decide⟩

/-- C2 (amended): every insertion targets its link's reserved slot range
(its own row, at or right of its reserved column), and no two insertions
target the same cell provided that, within each row, only the link with
the greatest reserved column produces more than one image — the
multi-page-PDF-followed-by-a-sibling case is excluded, as the code
overruns the next link's slot there. -/
theorem c2_distinct_slots (env : RunEnv) (td : Str) (ws : Worksheet)
    (hsingle : ∀ t ∈ dispatch ws,
      (∃ t' ∈ dispatch ws, t'.row = t.row ∧ t.startCol < t'.startCol) →
      (insertCells (taskEffects env td t)).length ≤ 1) :
    (insertCells (processExcelHyperlinks env td ws).1).Nodup
    ∧ ∀ rc ∈ insertCells (processExcelHyperlinks env td ws).1,
        ∃ t ∈ dispatch ws, rc.1 = t.row ∧ t.startCol ≤ rc.2 := by
  cases hval : validatePoppler env.popplerBin
  · have hrun : (processExcelHyperlinks env td ws).1
        = [Effect.mkdirTemp, Effect.dependencyCheck] := by
      simp [processExcelHyperlinks, hval]
    rw [hrun]
    refine ⟨List.nodup_nil, ?_⟩
    intro rc hrc
    exact absurd hrc (List.not_mem_nil rc)
  · have hrun1 : (processExcelHyperlinks env td ws).1
        = [Effect.mkdirTemp, Effect.dependencyCheck]
          ++ ((dispatch ws).map (taskEffects env td)).flatten := by
      simp [processExcelHyperlinks, hval]
    have hcells : insertCells (processExcelHyperlinks env td ws).1
        = ((dispatch ws).map fun t => insertCells (taskEffects env td t)).flatten := by
      rw [hrun1, insertCells_append, insertCells_flatten, List.map_map]
      rfl
    rw [hcells]
    constructor
    · rw [List.nodup_flatten]
      constructor
      · intro l hl
        rw [List.mem_map] at hl
        obtain ⟨t, -, rfl⟩ := hl
        obtain ⟨m, hm⟩ :=
          psl_insertCells (env.linkEnv t.row t.link.col) td t.link t.row t.startCol
        rw [taskEffects_eq, hm]
        refine List.Nodup.map ?_ (List.nodup_range m)
        intro a b hab
        simp only [Prod.mk.injEq, true_and] at hab
        omega
      · rw [List.pairwise_map]
        refine (dispatch_pairwise_order ws).imp_of_mem ?_
        intro t t' hts hts' hR p hp hp'
        rw [taskEffects_eq] at hp hp'
        have h1 := psl_insertCells_mem (env.linkEnv t.row t.link.col) td
          t.link t.row t.startCol p hp
        have h2 := psl_insertCells_mem (env.linkEnv t'.row t'.link.col) td
          t'.link t'.row t'.startCol p hp'
        rcases hR with hrow | hlt
        · exact hrow (h1.1.symm.trans h2.1)
        · by_cases hrow : t.row = t'.row
          · have hlen := hsingle t hts ⟨t', hts', hrow.symm, hlt⟩
            obtain ⟨m, hm⟩ :=
              psl_insertCells (env.linkEnv t.row t.link.col) td t.link t.row t.startCol
            rw [taskEffects_eq, hm] at hlen
            rw [hm] at hp
            rw [List.length_map, List.length_range] at hlen
            rw [List.mem_map] at hp
            obtain ⟨q, hq, rfl⟩ := hp
            rw [List.mem_range] at hq
            have : q = 0 := by omega
            subst this
            have hcol := h2.2
            simp only at hcol
            omega
          · exact hrow (h1.1.symm.trans h2.1)
    · intro rc hrc
      rw [List.mem_flatten] at hrc
      obtain ⟨l, hl, hrcl⟩ := hrc
      rw [List.mem_map] at hl
      obtain ⟨t, ht, rfl⟩ := hl
      rw [taskEffects_eq] at hrcl
      exact ⟨t, ht, psl_insertCells_mem (env.linkEnv t.row t.link.col) td
        t.link t.row t.startCol rc hrcl⟩

/-- Witness for C2: a run with two single-image JPG links in one row
inserts into pairwise-distinct cells. -/
theorem c2_witness :
    (insertCells (processExcelHyperlinks
      ⟨requiredPopplerFiles, fun _ _ => ⟨true, none, fun _ => false⟩⟩ "t".data
      ⟨[⟨1, 1, some "http://h/a.jpg".data⟩, ⟨1, 2, some "http://h/b.jpg".data⟩]⟩).1).Nodup :=
  (c2_distinct_slots ⟨requiredPopplerFiles, fun _ _ => ⟨true, none, fun _ => false⟩⟩
    "t".data ⟨[⟨1, 1, some "http://h/a.jpg".data⟩, ⟨1, 2, some "http://h/b.jpg".data⟩]⟩
    (by decide)).1

/-- C8 (counterexample): a sheet whose only cell is (1, 1) with a JPG
hyperlink saves a document with an image anchored at column 2, yet the
width entries cover only column 1 (`max_column` counts cells, not
images) — a column holding an embedded image is left unsized. -/
theorem c8_counterexample :
    (processExcelHyperlinks ⟨requiredPopplerFiles, fun _ _ => ⟨true, none, fun _ => false⟩⟩
      "t".data ⟨[⟨1, 1, some "http://h/a.jpg".data⟩]⟩).2
      = RunResult.saved ⟨[⟨scratchFile "t".data 1 1 "jpg".data, 1, 2, 180, 120⟩],
          [(1, 25)], [(1, 120)]⟩
    ∧ ((2 : Nat), (25 : Nat)) ∉ [((1 : Nat), (25 : Nat))] := by
  refine ⟨by decide, by decide⟩

/-- C8 (amended): the saved document carries width 25 for every column
of the cell grid's extent `1..max_column` and height 120 for every row
of `1..max_row`; every embedded image lies in a row within that extent
(so its row is resized), sized 180×120 — but image columns may exceed
`max_column` and are then not resized. -/
theorem c8_dimensions (env : RunEnv) (td : Str) (ws : Worksheet) (hWF : ws.WF)
    (effs : List Effect) (doc : OutputDoc)
    (hrun : processExcelHyperlinks env td ws = (effs, RunResult.saved doc)) :
    (∀ c, 1 ≤ c → c ≤ ws.maxColumn → (c, 25) ∈ doc.colWidths) ∧
    (∀ r, 1 ≤ r → r ≤ ws.maxRow → (r, 120) ∈ doc.rowHeights) ∧
    (∀ pl ∈ doc.images,
      1 ≤ pl.row ∧ pl.row ≤ ws.maxRow ∧ pl.width = 180 ∧ pl.height = 120) := by
  cases hval : validatePoppler env.popplerBin
  · rw [show processExcelHyperlinks env td ws
        = ([Effect.mkdirTemp, Effect.dependencyCheck],
          RunResult.fatal RunError.dependencyMissing) from by
      simp [processExcelHyperlinks, hval]] at hrun
    injection hrun with h1 h2
    cases h2
  · have hrun2 : processExcelHyperlinks env td ws
        = ([Effect.mkdirTemp, Effect.dependencyCheck]
            ++ ((dispatch ws).map (taskEffects env td)).flatten,
          RunResult.saved
            ⟨insertsOf ([Effect.mkdirTemp, Effect.dependencyCheck]
              ++ ((dispatch ws).map (taskEffects env td)).flatten),
              (List.range ws.maxColumn).map fun i => (i + 1, 25),
              (List.range ws.maxRow).map fun i => (i + 1, 120)⟩) := by
      simp [processExcelHyperlinks, hval]
    rw [hrun2] at hrun
    injection hrun with h1 h2
    injection h2 with h3
    subst h3
    refine ⟨?_, ?_, ?_⟩
    · intro c h1c h2c
      show (c, 25) ∈ (List.range ws.maxColumn).map fun i => (i + 1, 25)
      rw [List.mem_map]
      refine ⟨c - 1, List.mem_range.mpr (by omega), ?_⟩
      simp only [Prod.mk.injEq, and_true]
      omega
    · intro r h1r h2r
      show (r, 120) ∈ (List.range ws.maxRow).map fun i => (i + 1, 120)
      rw [List.mem_map]
      refine ⟨r - 1, List.mem_range.mpr (by omega), ?_⟩
      simp only [Prod.mk.injEq, and_true]
      omega
    · intro pl hpl
      have hsplit : insertsOf ([Effect.mkdirTemp, Effect.dependencyCheck]
          ++ ((dispatch ws).map (taskEffects env td)).flatten)
          = (((dispatch ws).map (taskEffects env td)).map insertsOf).flatten := by
        rw [insertsOf_append, insertsOf_flatten]
        rfl
      rw [hsplit, List.map_map, List.mem_flatten] at hpl
      obtain ⟨l, hl, hpll⟩ := hpl
      rw [List.mem_map] at hl
      obtain ⟨t, ht, rfl⟩ := hl
      have heff := insertsOf_mem_effect (taskEffects env td t) pl hpll
      have hok := psl_mem (env.linkEnv t.row t.link.col) td t.link t.row t.startCol _ heff
      obtain ⟨hplrow, -, hw, hh⟩ := hok
      have hkey : (t.row, t.link.col) ∈ hyperKeys ws.cells :=
        (dispatch_keys ws).mem_iff.mp (List.mem_map.mpr ⟨t, ht, rfl⟩)
      obtain ⟨cell, hcell, hcr, hcc⟩ := hyperKeys_mem ws.cells t.row t.link.col hkey
      have h1r : 1 ≤ cell.row := (hWF.1 cell hcell).1
      have h2r : cell.row ≤ ws.maxRow := cell_row_le_maxRow hcell
      exact ⟨by omega, by omega, hw, hh⟩

/-- Witness for C8: in the single-JPG run the one used column (column 1)
does get width 25. -/
theorem c8_witness :
    ((1 : Nat), (25 : Nat)) ∈ (OutputDoc.mk
      [⟨scratchFile "t".data 1 1 "jpg".data, 1, 2, 180, 120⟩]
      [(1, 25)] [(1, 120)]).colWidths :=
  (c8_dimensions ⟨requiredPopplerFiles, fun _ _ => ⟨true, none, fun _ => false⟩⟩ "t".data
    ⟨[⟨1, 1, some "http://h/a.jpg".data⟩]⟩ (by decide)
    [Effect.mkdirTemp, Effect.dependencyCheck, Effect.netGet "http://h/a.jpg".data,
      Effect.scratchWrite (scratchFile "t".data 1 1 "jpg".data),
      Effect.insertImage (scratchFile "t".data 1 1 "jpg".data) 1 2 180 120]
    ⟨[⟨scratchFile "t".data 1 1 "jpg".data, 1, 2, 180, 120⟩], [(1, 25)], [(1, 120)]⟩
    (by decide)).1 1 (by decide) (by decide)

end ExcelHL
